import Mathlib

/-!
Verification development for the toc-formatter web application.

The repository has two layers:
* a Node.js service layer (`pages/api/process.js`, the upload handler, and the
  download handler): modelled in namespace `Web`;
* a Python document-rewriting engine (`python/toc_formatter.py`), absent from
  the sources: modelled from the specification in namespace `Toc`.
-/

namespace Web

/-! ### Path and name computations of the service layer -/

/-- `path.join(process.cwd(), 'uploads', filename)` from process.js. -/
def inputPath (cwd filename : String) : String := cwd ++ "/uploads/" ++ filename

/-- `` `processed_${filename}` `` from process.js. -/
def outputFilename (filename : String) : String := "processed_" ++ filename

/-- `path.join(outputDir, outputFilename)` from process.js. -/
def outputPath (cwd filename : String) : String :=
  cwd ++ "/outputs/" ++ outputFilename filename

/-- `path.join(process.cwd(), 'python', 'toc_formatter.py')` from process.js. -/
def pythonScript (cwd : String) : String := cwd ++ "/python/toc_formatter.py"

/-- The argument vector handed to `spawn('python3', ...)` in process.js. -/
def engineArgs (script input output : String) : List String :=
  [script, input, "-o", output]

/-- Filesystem side effects performed by the handlers. -/
inductive FsAction where
  | unlink (p : String)
  | mkdirOutputs (p : String)
  | rename (src dst : String)
  deriving DecidableEq

/-- How the spawned engine process terminates: a normal `close` event with an
exit code and the accumulated stdout/stderr text, or an `error` event (the
process could not be started). On Node ≥ 16 — the version the repository
requires — a failed spawn emits `error` and then always emits `close` as well,
so the `spawnError` case covers the whole error-then-close sequence. -/
inductive EngineEvent where
  | close (code : Int) (stdout stderr : String)
  | spawnError
  deriving DecidableEq

/-- JSON bodies produced by the process handler. -/
inductive ProcBody where
  | plainError (error : String)
  | ok (outputFile : String) (logs : String)
  | fail (error : String) (logs : String)
  deriving DecidableEq

structure ProcResult where
  status : Nat
  body : ProcBody
  cleanup : List FsAction
  spawned : Option (List String)
  deriving DecidableEq

/-- The process handler of `pages/api/process.js`, as a function of the request
(method and body filename), the relevant filesystem observations
(`fs.existsSync` on the input path and on the outputs directory) and the
terminal event of the spawned engine process. -/
def processHandler (cwd method : String) (filename : Option String)
    (inputExists outputDirExists : Bool) (ev : EngineEvent) : ProcResult :=
  if method ≠ "POST" then ⟨405, .plainError "Method not allowed", [], none⟩
  else
    match filename with
    | none => ⟨400, .plainError "Filename is required", [], none⟩
    | some f =>
      if f = "" then ⟨400, .plainError "Filename is required", [], none⟩
      else if ¬ inputExists then ⟨404, .plainError "File not found", [], none⟩
      else
        let mk : List FsAction :=
          if outputDirExists then [] else [.mkdirOutputs (cwd ++ "/outputs")]
        let args := engineArgs (pythonScript cwd) (inputPath cwd f) (outputPath cwd f)
        match ev with
        | .close code out err =>
          if code = 0 then
            ⟨200, .ok (outputFilename f) out,
              mk ++ [.unlink (inputPath cwd f)], some args⟩
          else
            ⟨500, .fail (if err = "" then "Processing failed" else err) out,
              mk ++ [.unlink (inputPath cwd f)], some args⟩
        | .spawnError =>
          -- The `error` callback responds 500 first; the `close` event that
          -- Node fires afterwards runs `fs.unlinkSync(inputPath)` before its
          -- own (failing) response attempt, so the client-visible response is
          -- the spawn-failure 500 and the input file is still deleted.
          ⟨500, .plainError "Failed to start processing. Make sure Python is installed.",
            mk ++ [.unlink (inputPath cwd f)], some args⟩

/-! ### The upload handler -/

structure UploadedFile where
  originalFilename : Option String
  filepath : String
  deriving DecidableEq

inductive UploadBody where
  | uerror (error : String)
  | uok (filename : String) (originalName : String)
  deriving DecidableEq

structure UploadResult where
  status : Nat
  body : UploadBody
  actions : List FsAction
  deriving DecidableEq

/-- `` `${timestamp}_${file.originalFilename}` `` from the upload handler. -/
def storedName (ts : Nat) (orig : String) : String := toString ts ++ "_" ++ orig

/-- JS `s.endsWith(suffix)`. -/
def strEndsWith (s suf : String) : Bool := suf.data.isSuffixOf s.data

/-- `file.originalFilename?.endsWith('.docx')` coerced to a boolean, as the
upload handler's guard does (a missing original filename yields `undefined`,
which is falsy). -/
def docxOk (f : UploadedFile) : Bool :=
  match f.originalFilename with
  | some o => strEndsWith o ".docx"
  | none => false

/-- The upload handler of the repository (second handler in the sources), as a
function of the request method, the parsed file (already stored by formidable
at `f.filepath`) and the current timestamp. -/
def uploadHandler (uploadDir method : String) (file : Option UploadedFile)
    (ts : Nat) : UploadResult :=
  if method ≠ "POST" then ⟨405, .uerror "Method not allowed", []⟩
  else
    match file with
    | none => ⟨400, .uerror "No file uploaded", []⟩
    | some f =>
      if docxOk f then
        match f.originalFilename with
        | some orig =>
          ⟨200, .uok (storedName ts orig) orig,
            [.rename f.filepath (uploadDir ++ "/" ++ storedName ts orig)]⟩
        | none => ⟨400, .uerror "Only .docx files are allowed", [.unlink f.filepath]⟩
      else ⟨400, .uerror "Only .docx files are allowed", [.unlink f.filepath]⟩

/-! ### The download handler: path resolution -/

/-- Split a path on `'/'`, as `path.join` tokenizes its arguments. -/
def pathSegs (file : List Char) : List (List Char) := file.splitOn '/'

/-- One normalization step of Node's `path.join`: empty and `.` segments are
dropped, `..` pops the previously accumulated segment, anything else is
appended. -/
def joinStep (acc : List (List Char)) (seg : List Char) : List (List Char) :=
  if seg = [] ∨ seg = ".".data then acc
  else if seg = "..".data then acc.dropLast
  else acc ++ [seg]

/-- Normalized join of a segment list (the path is rooted, so `..` at the root
stays at the root, as in `path.join` on an absolute first argument). -/
def normJoin (segs : List (List Char)) : List (List Char) := segs.foldl joinStep []

/-- `path.join(process.cwd(), 'outputs', file)` from the download handler,
with the working directory given as its (already normalized) segments. -/
def downloadPath (cwd : List (List Char)) (file : List Char) : List (List Char) :=
  normJoin (cwd ++ ["outputs".data] ++ pathSegs file)

/-- The resolved path lies inside the outputs directory. -/
def insideOutputs (cwd : List (List Char)) (p : List (List Char)) : Bool :=
  (cwd ++ ["outputs".data]).isPrefixOf p

/-- A well-formed absolute directory: no empty, `.` or `..` segments. -/
def cleanSegs (cwd : List (List Char)) : Prop :=
  ∀ s ∈ cwd, s ≠ [] ∧ s ≠ ".".data ∧ s ≠ "..".data

/-! ### The download handler: attachment name -/

/-- JS `String.prototype.replace` with a string pattern and empty replacement:
removes the first occurrence of `pat`. -/
def replaceFirst (pat : List Char) : List Char → List Char
  | [] => []
  | c :: cs =>
    if pat.isPrefixOf (c :: cs) then (c :: cs).drop pat.length
    else c :: replaceFirst pat cs

/-- JS `s.replace(/^\d+_/, '')`: drop a maximal leading digit run when it is
immediately followed by an underscore. -/
def stripTsPrefix (s : List Char) : List Char :=
  let ds := s.takeWhile Char.isDigit
  if ds.isEmpty then s
  else
    match s.drop ds.length with
    | '_' :: rest => rest
    | _ => s

/-- `file.replace('processed_', '').replace(/^\d+_/, '')` from the download
handler. -/
def attachmentName (file : List Char) : List Char :=
  stripTsPrefix (replaceFirst "processed_".data file)

end Web

namespace Toc

/-!
The document-rewriting engine. The repository runs it as
`python/toc_formatter.py`, which is not part of the available sources; every
definition in this namespace is modelled from the specification's §3–§4
(data model, Line Classifier, Hierarchy Tracker, Dot-Leader Renderer,
Document Rewriter). Paragraphs are their text, a `List Char`.
-/

def isWS (c : Char) : Bool := c = ' ' || c = '\t'

def isDotChar (c : Char) : Bool := c = '.' || c = '…'

def isArrowChar (c : Char) : Bool := c = '→'

def isRomanChar (c : Char) : Bool :=
  c = 'I' || c = 'V' || c = 'X' || c = 'L' || c = 'C' || c = 'D' || c = 'M' ||
  c = 'i' || c = 'v' || c = 'x' || c = 'l' || c = 'c' || c = 'd' || c = 'm'

def takeTrailing (p : Char → Bool) (s : List Char) : List Char :=
  (s.reverse.takeWhile p).reverse

def dropTrailing (p : Char → Bool) (s : List Char) : List Char :=
  (s.reverse.dropWhile p).reverse

/-- Modelled from the spec: the dot-run removal of the missing
`toc_formatter.py` classifier (§4.1, detection policy 2: remove "any run of
2+ dot/period characters (with or without intervening spaces)"; `…` is a
multi-dot character). The flag records whether the previous non-space
character was a dot belonging to a removed run. A `.` is kept exactly when it
is not adjacent (through spaces) to another dot character. -/
def rdr : Bool → List Char → List Char
  | _, [] => []
  | b, c :: cs =>
    if c = '…' then rdr true cs
    else if c = '.' then
      if b then rdr true cs
      else
        match (cs.dropWhile (fun x => x = ' ')).head? with
        | some d => if isDotChar d then rdr true cs else '.' :: rdr false cs
        | none => '.' :: rdr false cs
    else if c = ' ' then ' ' :: rdr b cs
    else c :: rdr false cs

def isJunk (c : Char) : Bool := isDotChar c || isWS c

/-- Scanner deciding that a string contains no removable dot run: no `…` at
all and no two `.` separated only by spaces. Mirrors the traversal of
`rdr`. -/
def noDotPair : Bool → List Char → Bool
  | _, [] => true
  | b, c :: cs =>
    if c = '…' then false
    else if c = '.' then
      if b then false
      else
        match (cs.dropWhile (fun x => x = ' ')).head? with
        | some d => if isDotChar d then false else noDotPair false cs
        | none => noDotPair false cs
    else if c = ' ' then noDotPair b cs
    else noDotPair false cs

/-- Modelled from the spec: label cleanup of the missing `toc_formatter.py`
(§4.1: "after removing all arrow glyphs and any run of 2+ dot/period
characters …, becomes label, trimmed"; trailing dot artifacts are trimmed with
the whitespace). -/
def clean (s : List Char) : List Char :=
  dropTrailing isJunk (List.dropWhile isWS (rdr false (s.filter (fun c => !isArrowChar c))))

/-- Count of leading repetitions of `c`, with the remainder. -/
def repCount (c : Char) : List Char → Nat × List Char
  | [] => (0, [])
  | x :: xs => if x = c then let (n, r) := repCount c xs; (n + 1, r) else (0, x :: xs)

def onesPart (one : Char) (s : List Char) : Option (Nat × List Char) :=
  let (n, r) := repCount one s
  if n ≤ 3 then some (n, r) else none

/-- One decimal place of the canonical Roman-numeral grammar:
`(one ten | one five | five one^0..3 | one^0..3)`. -/
def scalePart (one five ten : Char) (s : List Char) : Option (Nat × List Char) :=
  match s with
  | x :: y :: r =>
    if x = one ∧ y = ten then some (9, r)
    else if x = one ∧ y = five then some (4, r)
    else if x = five then (onesPart one (y :: r)).map (fun q => (5 + q.1, q.2))
    else if x = one then onesPart one (x :: y :: r)
    else some (0, s)
  | [x] =>
    if x = five then some (5, [])
    else if x = one then some (1, [])
    else some (0, [x])
  | [] => some (0, [])

/-- Modelled from the spec: `parseRomanNumeral(token) -> optional int` of the
missing `toc_formatter.py` (§4.1 and §9: canonical Roman-numeral grammar over
I,V,X,L,C,D,M in valid subtractive-pair combination; expects an uppercase
token). -/
def romanValue (s : List Char) : Option Nat :=
  if s.isEmpty then none
  else do
    let (th, r1) ← onesPart 'M' s
    let (h, r2) ← scalePart 'C' 'D' 'M' r1
    let (t, r3) ← scalePart 'X' 'L' 'C' r2
    let (u, r4) ← scalePart 'I' 'V' 'X' r3
    if r4.isEmpty then some (1000 * th + 100 * h + 10 * t + u) else none

/-- A page number: an Arabic digit token kept verbatim, or a Roman-numeral
token with its parsed value. -/
inductive PageNum where
  | arabic (tok : List Char)
  | roman (tok : List Char) (val : Nat)
  deriving DecidableEq

def isMixedCase (s : List Char) : Bool := s.any Char.isLower && s.any Char.isUpper

/-- Modelled from the spec: page-number text of the renderer (§4.3:
"Roman-numeral page numbers are rendered verbatim (no case normalization
forced) unless the detected case was mixed, in which case normalize to
uppercase"). -/
def pageTok : PageNum → List Char
  | .arabic t => t
  | .roman t _ => if isMixedCase t then t.map Char.toUpper else t

/-- Modelled from the spec: trailing page-number token detection of the
missing `toc_formatter.py` (§4.1, detection policy 2: "a line ending … in a
numeric token (Arabic digits) or a Roman-numeral token"). Returns the line
before the token and the token. -/
def pageSuffix (s : List Char) : Option (List Char × PageNum) :=
  let ds := takeTrailing Char.isDigit s
  if !ds.isEmpty then some (dropTrailing Char.isDigit s, .arabic ds)
  else
    let rs := takeTrailing isRomanChar s
    if rs.isEmpty then none
    else
      match romanValue (rs.map Char.toUpper) with
      | some v => some (dropTrailing isRomanChar s, .roman rs v)
      | none => none

def allCaps (s : List Char) : Bool := s.all Char.isUpper

def titleCase (s : List Char) : Bool :=
  match s with
  | [] => false
  | c :: cs => c.isUpper && cs.all Char.isLower

def isSepChar (c : Char) : Bool := c = ':' || c = '-' || c = '—'

/-- Modelled from the spec: abbreviation-definition detection of the missing
`toc_formatter.py` (§4.1, detection policy 1: `ABBREVIATION<separator>
Expansion text`, separator a colon, dash or multiple-space run, token
all-caps or title-case of length ≤ 10; label is the line with the separator
normalized to a single " — "). -/
def abbrevParse (s : List Char) : Option (List Char) :=
  let tok := s.takeWhile Char.isAlpha
  if tok.isEmpty || 10 < tok.length || !(allCaps tok || titleCase tok) then none
  else
    let rest := s.dropWhile Char.isAlpha
    let sp := rest.takeWhile (fun c => c = ' ')
    match rest.dropWhile (fun c => c = ' ') with
    | c :: r =>
      if isSepChar c then
        let exp := r.dropWhile (fun x => x = ' ')
        if exp.isEmpty then none else some (tok ++ " — ".data ++ exp)
      else if 2 ≤ sp.length then some (tok ++ " — ".data ++ (c :: r))
      else none
    | [] => none

inductive Kind where
  | tocEntry
  | abbreviation
  | unmatched
  deriving DecidableEq

structure ClassifiedEntry where
  kind : Kind
  label : List Char
  page : Option PageNum
  rawIndentation : Nat
  deriving DecidableEq

def indentWidth (ws : List Char) : Nat :=
  (ws.map (fun c => if c = '\t' then 4 else 1)).sum

def hasAlnum (s : List Char) : Bool := s.any Char.isAlphanum

/-- Modelled from the spec: `classify(paragraph) -> ClassifiedEntry` of the
missing `toc_formatter.py` (§4.1: ordered detection policy — abbreviation
definition first, requiring no trailing page-number-looking suffix; then TOC
entry; otherwise UNMATCHED; a cleaned label that is empty or has no
alphanumeric text is UNMATCHED; leading indentation is preserved as
`rawIndentation`). -/
def classify (p : List Char) : ClassifiedEntry :=
  let ind := indentWidth (p.takeWhile isWS)
  let s := dropTrailing isWS (p.dropWhile isWS)
  match pageSuffix s with
  | some pp =>
    let lab := clean pp.1
    if hasAlnum lab then ⟨.tocEntry, lab, some pp.2, ind⟩
    else ⟨.unmatched, [], none, ind⟩
  | none =>
    match abbrevParse s with
    | some lab => ⟨.abbreviation, lab, none, ind⟩
    | none => ⟨.unmatched, [], none, ind⟩

/-- Tracker state: previously resolved level and the raw indentation of the
previous matched entry (`none` before the first matched entry). -/
abbrev TrackerState := Option (Nat × Nat)

/-- Fixed configuration constant bounding inferred levels (spec §4.2). -/
def maxLevel : Nat := 5

/-- Number of numbering separators in a leading numeric prefix of the label
(spec §4.2's fallback heuristic, e.g. 1 for a label starting "1.1 "). -/
def numberingDepth (label : List Char) : Nat :=
  (label.takeWhile (fun c => c.isDigit || c = '.')).count '.'

structure RenderConfig where
  indentPerLevel : Nat
  marginColumn : Nat
  leaderChar : Char
  minLeaderLength : Nat
  deriving DecidableEq

/-- Modelled from the spec: `inferLevel(entry, state)` of the missing
`toc_formatter.py` (§4.2: indentation quantized into indent units; when the
indentation signal is absent or ambiguous — it quantizes to 0 — and the label
carries a sub-numbering pattern, fall back to the numbering-pattern count;
strictly greater indentation than the predecessor is one level deeper when
quantization would not already make it deeper; clamped to `[0, maxLevel]`). -/
def levelEstimate (c : RenderConfig) (e : ClassifiedEntry) : Nat :=
  if e.rawIndentation / c.indentPerLevel = 0 ∧ 0 < numberingDepth e.label then
    numberingDepth e.label
  else e.rawIndentation / c.indentPerLevel

def levelRaw (c : RenderConfig) (e : ClassifiedEntry) (st : TrackerState) : Nat :=
  match st with
  | some (pl, pi) =>
    if pi < e.rawIndentation ∧ levelEstimate c e ≤ pl then pl + 1
    else levelEstimate c e
  | none => levelEstimate c e

def inferLevel (c : RenderConfig) (e : ClassifiedEntry) (st : TrackerState) :
    Nat × TrackerState :=
  (min (levelRaw c e st) maxLevel, some (min (levelRaw c e st) maxLevel, e.rawIndentation))

/-- `leaderLength = max(minLeaderLength, marginColumn - indentWidth -
labelWidth - pageNumberWidth)` (spec §4.3). -/
def leaderLen (c : RenderConfig) (indW labW pW : Nat) : Nat :=
  max c.minLeaderLength (c.marginColumn - indW - labW - pW)

/-- Modelled from the spec: `render(entry, level, config)` of the missing
`toc_formatter.py` (§4.3: indentation of `indentPerLevel * level`, the
computed fill-character leader, and the page-number text for TOC entries;
abbreviation entries are the indented normalized label with no leader or page
number). -/
def render (c : RenderConfig) (e : ClassifiedEntry) (lv : Nat) : List Char :=
  let ind := List.replicate (c.indentPerLevel * lv) ' '
  match e.kind, e.page with
  | .tocEntry, some pn =>
    ind ++ e.label
      ++ List.replicate (leaderLen c ind.length e.label.length (pageTok pn).length) c.leaderChar
      ++ pageTok pn
  | _, _ => ind ++ e.label

/-- One step of the rewriter: unmatched paragraphs are copied unchanged, the
rest go through the tracker and the renderer. -/
def rewriteStep (c : RenderConfig) (st : TrackerState) (p : List Char) :
    List Char × TrackerState :=
  let e := classify p
  if e.kind = .unmatched then (p, st)
  else
    let (lv, st') := inferLevel c e st
    (render c e lv, st')

def rewriteGo (c : RenderConfig) : TrackerState → List (List Char) → List (List Char)
  | _, [] => []
  | st, p :: ps =>
    let (o, st') := rewriteStep c st p
    o :: rewriteGo c st' ps

/-- Modelled from the spec: `rewrite(document) -> document'` of the missing
`toc_formatter.py` (§4.4: a single forward pass in original order with fresh
tracker state). -/
def rewrite (c : RenderConfig) (d : List (List Char)) : List (List Char) :=
  rewriteGo c none d

/-- The page-number text a paragraph's classification renders (empty when the
paragraph has no page number). -/
def renderedPage (p : List Char) : List Char :=
  match (classify p).page with
  | some pn => pageTok pn
  | none => []

/-- Shape invariant of labels produced by `clean`: arrow-free, no removable
dot run, no leading whitespace, no trailing dot or whitespace. -/
def GoodLabel (l : List Char) : Prop :=
  (∀ c ∈ l, isArrowChar c = false)
  ∧ noDotPair false l = true
  ∧ (∀ c, l.head? = some c → isWS c = false)
  ∧ (∀ c, l.getLast? = some c → isJunk c = false)

/-- Shape invariant of page tokens produced by `pageSuffix`. -/
def GoodPage : PageNum → Prop
  | .arabic t => t ≠ [] ∧ ∀ c ∈ t, c.isDigit = true
  | .roman t v =>
      t ≠ [] ∧ (∀ c ∈ t, isRomanChar c = true)
      ∧ romanValue (t.map Char.toUpper) = some v

end Toc

namespace Web

/-! ### Helper lemmas for the web layer -/

theorem isPrefixOf_append_self (l₁ l₂ : List Char) :
    l₁.isPrefixOf (l₁ ++ l₂) = true := by
  rw [List.isPrefixOf_iff_prefix]; exact ⟨l₂, rfl⟩

theorem replaceFirst_of_head (pat rest : List Char) (hpat : pat ≠ []) :
    replaceFirst pat (pat ++ rest) = rest := by
  obtain ⟨p, ps, rfl⟩ := List.exists_cons_of_ne_nil hpat
  show replaceFirst (p :: ps) (p :: (ps ++ rest)) = rest
  rw [replaceFirst]
  have h : (p :: ps).isPrefixOf (p :: ps ++ rest) = true := isPrefixOf_append_self _ _
  simp only [List.cons_append] at h
  rw [if_pos h]
  exact List.drop_left (p :: ps) rest

theorem takeWhile_all_append (p : Char → Bool) (l t : List Char)
    (hl : ∀ c ∈ l, p c = true) :
    List.takeWhile p (l ++ t) = l ++ List.takeWhile p t := by
  induction l with
  | nil => simp
  | cons c cs ih =>
    simp only [List.cons_append, List.takeWhile_cons, hl c (by simp), if_true]
    rw [ih (fun c hc => hl c (by simp [hc]))]

theorem foldl_joinStep_keeps_start (segs : List (List Char)) :
    ∀ acc, (∀ s ∈ segs, s ≠ "..".data) →
      acc <+: List.foldl joinStep acc segs := by
  induction segs with
  | nil => intro acc _; exact ⟨[], by simp⟩
  | cons s ss ih =>
    intro acc h
    have hs : s ≠ "..".data := h s (by simp)
    have hss : ∀ x ∈ ss, x ≠ "..".data := fun x hx => h x (by simp [hx])
    have step : acc <+: joinStep acc s := by
      unfold joinStep
      rw [if_neg hs]
      split
      · exact ⟨[], by simp⟩
      · exact ⟨[s], rfl⟩
    exact step.trans (ih (joinStep acc s) hss)

theorem foldl_joinStep_clean (segs : List (List Char)) :
    ∀ acc, cleanSegs segs → List.foldl joinStep acc segs = acc ++ segs := by
  induction segs with
  | nil => intro acc _; simp
  | cons s ss ih =>
    intro acc h
    obtain ⟨h1, h2, h3⟩ := h s (by simp)
    have hss : cleanSegs ss := fun x hx => h x (by simp [hx])
    have step : joinStep acc s = acc ++ [s] := by
      unfold joinStep
      rw [if_neg (by simp [h1, h2]), if_neg h3]
    simp only [List.foldl_cons, step, ih _ hss, List.append_assoc, List.singleton_append]

/-! ### Claim theorems for the service layer -/

/-- C1: for every process request carrying a nonempty filename whose input
file exists, the handler spawns the engine on exactly the input path and the
output path (no other request data reaches the engine), and the response
reports success or failure together with the processing log captured on
stdout. -/
theorem process_handler_invocation (cwd f out err : String) (dirE : Bool)
    (code : Int) (hf : f ≠ "") :
    (processHandler cwd "POST" (some f) true dirE (.close code out err)).spawned
        = some (engineArgs (pythonScript cwd) (inputPath cwd f) (outputPath cwd f))
    ∧ (code = 0 →
        (processHandler cwd "POST" (some f) true dirE (.close code out err)).status = 200
        ∧ (processHandler cwd "POST" (some f) true dirE (.close code out err)).body
            = .ok (outputFilename f) out)
    ∧ (code ≠ 0 →
        (processHandler cwd "POST" (some f) true dirE (.close code out err)).status = 500
        ∧ ∃ msg, (processHandler cwd "POST" (some f) true dirE (.close code out err)).body
            = .fail msg out) := by
  unfold processHandler
  by_cases hc : code = 0 <;> simp [hf, hc]

theorem process_handler_invocation_witness :
    (processHandler "/app" "POST" (some "a.docx") true true (.close 0 "log" "")).spawned
      = some (engineArgs (pythonScript "/app") (inputPath "/app" "a.docx")
          (outputPath "/app" "a.docx")) :=
  (process_handler_invocation "/app" "a.docx" "log" "" true 0 (by decide)).1

/-- C2: once a process request has reached the spawn (nonempty filename, input
file present), the temporary input file is deleted on every terminal outcome
of the engine process: on `close` with zero or nonzero exit code, and on spawn
failure — where Node (≥ 16) always fires `close` after the `error` event, and
the `close` callback's first action is `fs.unlinkSync(inputPath)`. -/
theorem process_releases_input (cwd f : String) (dirE : Bool) (ev : EngineEvent)
    (hf : f ≠ "") :
    FsAction.unlink (inputPath cwd f) ∈
      (processHandler cwd "POST" (some f) true dirE ev).cleanup := by
  unfold processHandler
  rcases ev with ⟨code, out, err⟩ | _
  · by_cases hc : code = 0 <;> simp [hf, hc]
  · simp [hf]

theorem process_releases_input_witness :
    FsAction.unlink (inputPath "/app" "a.docx") ∈
      (processHandler "/app" "POST" (some "a.docx") true true .spawnError).cleanup
    ∧ FsAction.unlink (inputPath "/app" "a.docx") ∈
      (processHandler "/app" "POST" (some "a.docx") true true (.close 1 "log" "boom")).cleanup :=
  ⟨process_releases_input "/app" "a.docx" true .spawnError (by decide),
   process_releases_input "/app" "a.docx" true (.close 1 "log" "boom") (by decide)⟩

/-- C3: a nonzero engine exit code yields a 500 response whose body carries the
accumulated stderr text (or the fixed fallback message when stderr is empty)
together with the processing log captured on stdout. -/
theorem process_nonzero_exit_reports (cwd f out err : String) (dirE : Bool)
    (code : Int) (hf : f ≠ "") (hc : code ≠ 0) :
    (processHandler cwd "POST" (some f) true dirE (.close code out err)).status = 500
    ∧ (processHandler cwd "POST" (some f) true dirE (.close code out err)).body
        = .fail (if err = "" then "Processing failed" else err) out := by
  unfold processHandler
  simp [hf, hc]

theorem process_nonzero_exit_reports_witness :
    (processHandler "/app" "POST" (some "a.docx") true true (.close 1 "partial log" "")).body
      = .fail "Processing failed" "partial log" := by
  have h := process_nonzero_exit_reports "/app" "a.docx" "partial log" "" true 1
    (by decide) (by decide)
  simpa using h.2

/-- C4 counterexample: a `file` query parameter containing `..` resolves
outside the outputs directory (`path.join` normalizes the traversal), so the
download handler can serve files outside `outputs/`. -/
theorem download_path_escape :
    insideOutputs ["srv".data, "app".data]
      (downloadPath ["srv".data, "app".data] "../secret.docx".data) = false := by
  decide

/-- C4 (amended): for every `file` parameter none of whose slash-separated
segments is `..`, the path the download handler resolves stays inside the
outputs directory. -/
theorem download_path_confined (cwd : List (List Char)) (file : List Char)
    (hc : cleanSegs cwd) (hf : ∀ seg ∈ pathSegs file, seg ≠ "..".data) :
    insideOutputs cwd (downloadPath cwd file) = true := by
  unfold insideOutputs downloadPath normJoin
  rw [List.isPrefixOf_iff_prefix, List.foldl_append]
  have hclean : cleanSegs (cwd ++ ["outputs".data]) := by
    intro s hs
    rcases List.mem_append.1 hs with h | h
    · exact hc s h
    · simp only [List.mem_singleton] at h
      subst h
      refine ⟨by decide, by decide, by decide⟩
  rw [foldl_joinStep_clean _ _ hclean, List.nil_append]
  exact foldl_joinStep_keeps_start _ _ hf

theorem download_path_confined_witness :
    insideOutputs ["srv".data, "app".data]
      (downloadPath ["srv".data, "app".data] "processed_17_r.docx".data) = true :=
  download_path_confined ["srv".data, "app".data] "processed_17_r.docx".data
    (by unfold cleanSegs; decide) (by decide)

/-- C5: for every original name and every (digit-string) timestamp, the
attachment name the download handler computes from the stored output name
`processed_` ++ ts ++ `_` ++ orig is exactly `orig`: the three handlers'
naming conventions round-trip. -/
theorem attachment_name_round_trip (ds orig : List Char) (h1 : ds ≠ [])
    (h2 : ∀ c ∈ ds, c.isDigit = true) :
    attachmentName ("processed_".data ++ (ds ++ '_' :: orig)) = orig := by
  unfold attachmentName
  rw [replaceFirst_of_head _ _ (by decide)]
  have ht : List.takeWhile Char.isDigit (ds ++ '_' :: orig) = ds := by
    rw [takeWhile_all_append _ _ _ h2, List.takeWhile_cons, if_neg (by decide)]
    simp
  unfold stripTsPrefix
  simp only [ht, List.drop_left]
  rw [if_neg (by simp [h1])]

theorem attachment_name_round_trip_witness :
    attachmentName "processed_1733_report.docx".data = "report.docx".data := by
  have h := attachment_name_round_trip "1733".data "report.docx".data
    (by decide) (by decide)
  simpa using h

/-- C6: the upload handler deletes the stored temporary file and answers 400
whenever the uploaded file's original name does not end in `.docx` (including
a missing name), and otherwise renames the temporary file to the
timestamp-prefixed name and returns that name. -/
theorem upload_handler_docx_policy (dir : String) (f : UploadedFile) (ts : Nat) :
    (docxOk f = false →
      (uploadHandler dir "POST" (some f) ts).status = 400
      ∧ (uploadHandler dir "POST" (some f) ts).actions = [.unlink f.filepath])
    ∧ (∀ orig, f.originalFilename = some orig → strEndsWith orig ".docx" = true →
      (uploadHandler dir "POST" (some f) ts).status = 200
      ∧ (uploadHandler dir "POST" (some f) ts).body = .uok (storedName ts orig) orig
      ∧ (uploadHandler dir "POST" (some f) ts).actions
          = [.rename f.filepath (dir ++ "/" ++ storedName ts orig)]) := by
  constructor
  · intro hbad
    unfold uploadHandler
    rcases ho : f.originalFilename with _ | orig <;> simp [hbad]
  · intro orig ho hdocx
    have hok : docxOk f = true := by unfold docxOk; rw [ho]; exact hdocx
    unfold uploadHandler
    simp [hok, ho]

theorem upload_handler_docx_policy_witness :
    (uploadHandler "/app/uploads" "POST" (some ⟨some "r.docx", "/tmp/up1"⟩) 42).body
      = .uok (storedName 42 "r.docx") "r.docx" :=
  ((upload_handler_docx_policy "/app/uploads" ⟨some "r.docx", "/tmp/up1"⟩ 42).2
    "r.docx" rfl (by decide)).2.1

end Web

namespace Toc

/-! ### List scanning toolbox -/

theorem dropWhile_append_all (p : Char → Bool) (l t : List Char)
    (h : ∀ c ∈ l, p c = true) :
    List.dropWhile p (l ++ t) = List.dropWhile p t := by
  induction l with
  | nil => simp
  | cons c cs ih =>
    simp only [List.cons_append, List.dropWhile_cons, h c (by simp), if_true]
    exact ih fun c hc => h c (by simp [hc])

theorem dropWhile_cons_neg (p : Char → Bool) (c : Char) (t : List Char)
    (h : p c = false) : List.dropWhile p (c :: t) = c :: t := by
  simp [List.dropWhile_cons, h]

theorem takeWhile_cons_neg (p : Char → Bool) (c : Char) (t : List Char)
    (h : p c = false) : List.takeWhile p (c :: t) = [] := by
  simp [List.takeWhile_cons, h]

theorem takeWhile_stops (p : Char → Bool) (l t : List Char)
    (h : List.dropWhile p l ≠ []) :
    List.takeWhile p (l ++ t) = List.takeWhile p l := by
  induction l with
  | nil => simp at h
  | cons c cs ih =>
    by_cases hc : p c = true
    · rw [List.dropWhile_cons, if_pos hc] at h
      simp only [List.cons_append, List.takeWhile_cons, hc, if_true]
      rw [ih h]
    · have hc' : p c = false := by simpa using hc
      simp [List.takeWhile_cons, hc']

theorem dropWhile_stops (p : Char → Bool) (l t : List Char)
    (h : List.dropWhile p l ≠ []) :
    List.dropWhile p (l ++ t) = List.dropWhile p l ++ t := by
  rw [List.dropWhile_append]
  simp only [List.isEmpty_iff]
  rw [if_neg h]

theorem head_dropWhile (p : Char → Bool) (l : List Char) :
    ∀ c, (List.dropWhile p l).head? = some c → p c = false := by
  induction l with
  | nil => intro c h; simp at h
  | cons x xs ih =>
    intro c h
    by_cases hx : p x = true
    · rw [List.dropWhile_cons, if_pos hx] at h
      exact ih c h
    · have hx' : p x = false := by simpa using hx
      rw [dropWhile_cons_neg p x xs hx'] at h
      simp only [List.head?_cons, Option.some.injEq] at h
      rw [← h]; exact hx'

theorem head?_of_append_left (a b : List Char) (c : Char) (h : a.head? = some c) :
    (a ++ b).head? = some c := by
  cases a with
  | nil => simp at h
  | cons x xs => simpa using h

theorem getLast?_append_right (a b : List Char) (c : Char) (h : b.getLast? = some c) :
    (a ++ b).getLast? = some c := by
  rw [List.getLast?_eq_head?_reverse, List.reverse_append]
  rw [List.getLast?_eq_head?_reverse] at h
  exact head?_of_append_left _ _ _ h

/-! ### takeTrailing / dropTrailing -/

theorem dropTrailing_append_takeTrailing (p : Char → Bool) (s : List Char) :
    dropTrailing p s ++ takeTrailing p s = s := by
  unfold dropTrailing takeTrailing
  rw [← List.reverse_append, List.takeWhile_append_dropWhile, List.reverse_reverse]

theorem takeTrailing_mem (p : Char → Bool) (s : List Char) :
    ∀ c ∈ takeTrailing p s, p c = true := by
  intro c hc
  unfold takeTrailing at hc
  rw [List.mem_reverse] at hc
  exact List.mem_takeWhile_imp hc

theorem takeTrailing_split (p : Char → Bool) (a b : List Char) (c₀ : Char)
    (ha : a.getLast? = some c₀) (hc : p c₀ = false)
    (hb : ∀ c ∈ b, p c = true) :
    takeTrailing p (a ++ b) = b ∧ dropTrailing p (a ++ b) = a := by
  have hhead : a.reverse.head? = some c₀ := by rw [List.head?_reverse]; exact ha
  obtain ⟨x, xs, hx⟩ : ∃ x xs, a.reverse = x :: xs := by
    cases harev : a.reverse with
    | nil => rw [harev] at hhead; simp at hhead
    | cons x xs => exact ⟨x, xs, rfl⟩
  have hxc : x = c₀ := by rw [hx] at hhead; simpa using hhead
  have hbrev : ∀ c ∈ b.reverse, p c = true := fun c hcm =>
    hb c (List.mem_reverse.1 hcm)
  constructor
  · unfold takeTrailing
    rw [List.reverse_append, Web.takeWhile_all_append p b.reverse a.reverse hbrev,
      hx, takeWhile_cons_neg p x xs (hxc ▸ hc)]
    simp
  · unfold dropTrailing
    rw [List.reverse_append, dropWhile_append_all p b.reverse a.reverse hbrev,
      hx, dropWhile_cons_neg p x xs (hxc ▸ hc), ← hx]
    simp

theorem takeTrailing_nil (p : Char → Bool) (s : List Char) (c₀ : Char)
    (ha : s.getLast? = some c₀) (hc : p c₀ = false) :
    takeTrailing p s = [] := by
  have hhead : s.reverse.head? = some c₀ := by rw [List.head?_reverse]; exact ha
  obtain ⟨x, xs, hx⟩ : ∃ x xs, s.reverse = x :: xs := by
    cases harev : s.reverse with
    | nil => rw [harev] at hhead; simp at hhead
    | cons x xs => exact ⟨x, xs, rfl⟩
  have hxc : x = c₀ := by rw [hx] at hhead; simpa using hhead
  unfold takeTrailing
  rw [hx, takeWhile_cons_neg p x xs (hxc ▸ hc)]
  simp

theorem dropTrailing_nop (p : Char → Bool) (s : List Char)
    (h : ∀ c, s.getLast? = some c → p c = false) :
    dropTrailing p s = s := by
  cases hs : s.reverse with
  | nil =>
    have : s = [] := by simpa using congrArg List.reverse hs
    simp [this, dropTrailing]
  | cons x xs =>
    have hx : s.getLast? = some x := by
      rw [← List.head?_reverse, hs]; rfl
    unfold dropTrailing
    rw [hs, dropWhile_cons_neg p x xs (h x hx), ← hs]
    simp

theorem dropTrailing_getLast (p : Char → Bool) (s : List Char) :
    ∀ c, (dropTrailing p s).getLast? = some c → p c = false := by
  intro c h
  unfold dropTrailing at h
  rw [List.getLast?_eq_head?_reverse, List.reverse_reverse] at h
  exact head_dropWhile p s.reverse c h

theorem dropTrailing_mem (p : Char → Bool) (s : List Char) :
    ∀ c ∈ dropTrailing p s, c ∈ s := by
  intro c hc
  unfold dropTrailing at hc
  rw [List.mem_reverse] at hc
  have := (List.dropWhile_suffix (l := s.reverse) p).sublist.mem hc
  exact List.mem_reverse.1 this

end Toc

namespace Toc

/-! ### Reduction equations for the dot-run scanners -/

theorem mem_of_getLast {l : List Char} {c : Char} (h : l.getLast? = some c) :
    c ∈ l := by
  rw [List.getLast?_eq_head?_reverse] at h
  rcases lr : l.reverse with _ | ⟨x, xs⟩
  · rw [lr] at h; simp at h
  · rw [lr] at h
    simp only [List.head?_cons, Option.some.injEq] at h
    subst h
    exact List.mem_reverse.1 (by rw [lr]; simp)

theorem rdr_cons_dots (b : Bool) (cs : List Char) :
    rdr b ('…' :: cs) = rdr true cs := by simp [rdr]

theorem rdr_cons_dot_true (cs : List Char) :
    rdr true ('.' :: cs) = rdr true cs := by simp [rdr]

theorem rdr_dot_sep (cs : List Char) (d : Char)
    (hd : (cs.dropWhile (fun x => x = ' ')).head? = some d)
    (hnd : isDotChar d = false) :
    rdr false ('.' :: cs) = '.' :: rdr false cs := by simp [rdr, hd, hnd]

theorem rdr_dot_pair (cs : List Char) (d : Char)
    (hd : (cs.dropWhile (fun x => x = ' ')).head? = some d)
    (hnd : isDotChar d = true) :
    rdr false ('.' :: cs) = rdr true cs := by simp [rdr, hd, hnd]

theorem rdr_dot_end (cs : List Char)
    (hd : (cs.dropWhile (fun x => x = ' ')).head? = none) :
    rdr false ('.' :: cs) = '.' :: rdr false cs := by simp [rdr, hd]

theorem rdr_cons_space (b : Bool) (cs : List Char) :
    rdr b (' ' :: cs) = ' ' :: rdr b cs := by simp [rdr]

theorem rdr_cons_other (b : Bool) (c : Char) (cs : List Char)
    (h1 : c ≠ '…') (h2 : c ≠ '.') (h3 : c ≠ ' ') :
    rdr b (c :: cs) = c :: rdr false cs := by simp [rdr, h1, h2, h3]

theorem noDotPair_cons_dots (b : Bool) (cs : List Char) :
    noDotPair b ('…' :: cs) = false := by simp [noDotPair]

theorem noDotPair_cons_dot_true (cs : List Char) :
    noDotPair true ('.' :: cs) = false := by simp [noDotPair]

theorem noDotPair_dot_sep (cs : List Char) (d : Char)
    (hd : (cs.dropWhile (fun x => x = ' ')).head? = some d)
    (hnd : isDotChar d = false) :
    noDotPair false ('.' :: cs) = noDotPair false cs := by simp [noDotPair, hd, hnd]

theorem noDotPair_dot_pair (cs : List Char) (d : Char)
    (hd : (cs.dropWhile (fun x => x = ' ')).head? = some d)
    (hnd : isDotChar d = true) :
    noDotPair false ('.' :: cs) = false := by simp [noDotPair, hd, hnd]

theorem noDotPair_dot_end (cs : List Char)
    (hd : (cs.dropWhile (fun x => x = ' ')).head? = none) :
    noDotPair false ('.' :: cs) = noDotPair false cs := by simp [noDotPair, hd]

theorem noDotPair_cons_space (b : Bool) (cs : List Char) :
    noDotPair b (' ' :: cs) = noDotPair b cs := by simp [noDotPair]

theorem noDotPair_cons_other (b : Bool) (c : Char) (cs : List Char)
    (h1 : c ≠ '…') (h2 : c ≠ '.') (h3 : c ≠ ' ') :
    noDotPair b (c :: cs) = noDotPair false cs := by simp [noDotPair, h1, h2, h3]

theorem lookahead_append (cs b : List Char)
    (h : cs.dropWhile (fun x => x = ' ') ≠ []) :
    ((cs ++ b).dropWhile (fun x => x = ' ')).head?
      = (cs.dropWhile (fun x => x = ' ')).head? := by
  rw [dropWhile_stops _ _ _ h]
  obtain ⟨x, xs, hx⟩ := List.exists_cons_of_ne_nil h
  rw [hx]; rfl

end Toc

namespace Toc

/-! ### Main scanner lemmas -/

theorem noDotPair_mono : ∀ (s : List Char), noDotPair true s = true → noDotPair false s = true := by
  intro s
  induction s with
  | nil => intro _; rfl
  | cons c cs ih =>
    intro h
    by_cases h1 : c = '…'
    · subst h1; rw [noDotPair_cons_dots] at h; exact absurd h (by simp)
    · by_cases h2 : c = '.'
      · subst h2; rw [noDotPair_cons_dot_true] at h; exact absurd h (by simp)
      · by_cases h3 : c = ' '
        · subst h3
          rw [noDotPair_cons_space] at h ⊢
          exact ih h
        · rw [noDotPair_cons_other _ _ _ h1 h2 h3] at h ⊢
          exact h

theorem noDotPair_drop : ∀ (a b : List Char) (f : Bool),
    noDotPair f (a ++ b) = true → noDotPair false b = true := by
  intro a
  induction a with
  | nil =>
    intro b f h
    cases f
    · exact h
    · exact noDotPair_mono b h
  | cons c cs ih =>
    intro b f h
    rw [List.cons_append] at h
    by_cases h1 : c = '…'
    · subst h1; rw [noDotPair_cons_dots] at h; exact absurd h (by simp)
    · by_cases h2 : c = '.'
      · subst h2
        cases f with
        | true => rw [noDotPair_cons_dot_true] at h; exact absurd h (by simp)
        | false =>
          rcases hh : ((cs ++ b).dropWhile (fun x => x = ' ')).head? with _ | d
          · rw [noDotPair_dot_end _ hh] at h; exact ih b false h
          · by_cases hd : isDotChar d = true
            · rw [noDotPair_dot_pair _ _ hh hd] at h; exact absurd h (by simp)
            · rw [noDotPair_dot_sep _ _ hh (by simpa using hd)] at h
              exact ih b false h
      · by_cases h3 : c = ' '
        · subst h3; rw [noDotPair_cons_space] at h; exact ih b f h
        · rw [noDotPair_cons_other _ _ _ h1 h2 h3] at h; exact ih b false h

theorem noDotPair_take : ∀ (a b : List Char) (f : Bool),
    noDotPair f (a ++ b) = true → noDotPair f a = true := by
  intro a
  induction a with
  | nil => intro b f _; rfl
  | cons c cs ih =>
    intro b f h
    rw [List.cons_append] at h
    by_cases h1 : c = '…'
    · subst h1; rw [noDotPair_cons_dots] at h; exact absurd h (by simp)
    · by_cases h2 : c = '.'
      · subst h2
        cases f with
        | true => rw [noDotPair_cons_dot_true] at h; exact absurd h (by simp)
        | false =>
          rcases hnil : cs.dropWhile (fun x => x = ' ') with _ | ⟨d0, rest⟩
          · rcases hh : ((cs ++ b).dropWhile (fun x => x = ' ')).head? with _ | d
            · rw [noDotPair_dot_end _ hh] at h
              rw [noDotPair_dot_end _ (by rw [hnil]; rfl)]
              exact ih b false h
            · by_cases hd : isDotChar d = true
              · rw [noDotPair_dot_pair _ _ hh hd] at h; exact absurd h (by simp)
              · rw [noDotPair_dot_sep _ _ hh (by simpa using hd)] at h
                rw [noDotPair_dot_end _ (by rw [hnil]; rfl)]
                exact ih b false h
          · have hne : cs.dropWhile (fun x => x = ' ') ≠ [] := by rw [hnil]; simp
            have hd0 : (cs.dropWhile (fun x => x = ' ')).head? = some d0 := by
              rw [hnil]; rfl
            have hla : ((cs ++ b).dropWhile (fun x => x = ' ')).head? = some d0 := by
              rw [lookahead_append cs b hne, hd0]
            by_cases hd : isDotChar d0 = true
            · rw [noDotPair_dot_pair _ _ hla hd] at h; exact absurd h (by simp)
            · have hd2 : isDotChar d0 = false := by simpa using hd
              rw [noDotPair_dot_sep _ _ hla hd2] at h
              rw [noDotPair_dot_sep _ _ hd0 hd2]
              exact ih b false h
      · by_cases h3 : c = ' '
        · subst h3
          rw [noDotPair_cons_space] at h ⊢
          exact ih b f h
        · rw [noDotPair_cons_other _ _ _ h1 h2 h3] at h ⊢
          exact ih b false h

theorem rdr_of_noDotPair : ∀ (s : List Char) (b : Bool),
    noDotPair b s = true → rdr b s = s := by
  intro s
  induction s with
  | nil => intro b _; rfl
  | cons c cs ih =>
    intro b h
    by_cases h1 : c = '…'
    · subst h1; rw [noDotPair_cons_dots] at h; exact absurd h (by simp)
    · by_cases h2 : c = '.'
      · subst h2
        cases b with
        | true => rw [noDotPair_cons_dot_true] at h; exact absurd h (by simp)
        | false =>
          rcases hh : (cs.dropWhile (fun x => x = ' ')).head? with _ | d
          · rw [noDotPair_dot_end _ hh] at h
            rw [rdr_dot_end _ hh, ih false h]
          · by_cases hd : isDotChar d = true
            · rw [noDotPair_dot_pair _ _ hh hd] at h; exact absurd h (by simp)
            · have hd2 : isDotChar d = false := by simpa using hd
              rw [noDotPair_dot_sep _ _ hh hd2] at h
              rw [rdr_dot_sep _ _ hh hd2, ih false h]
      · by_cases h3 : c = ' '
        · subst h3
          rw [noDotPair_cons_space] at h
          rw [rdr_cons_space, ih b h]
        · rw [noDotPair_cons_other _ _ _ h1 h2 h3] at h
          rw [rdr_cons_other _ _ _ h1 h2 h3, ih false h]

theorem rdr_spaces : ∀ (sp : List Char), (∀ c ∈ sp, c = ' ') → ∀ b, rdr b sp = sp := by
  intro sp
  induction sp with
  | nil => intro _ _; rfl
  | cons c cs ih =>
    intro h b
    have hc := h c (by simp)
    subst hc
    rw [rdr_cons_space, ih (fun x hx => h x (by simp [hx])) b]

theorem noDotPair_spaces : ∀ (sp : List Char), (∀ c ∈ sp, c = ' ') → ∀ b, noDotPair b sp = true := by
  intro sp
  induction sp with
  | nil => intro _ _; rfl
  | cons c cs ih =>
    intro h b
    have hc := h c (by simp)
    subst hc
    rw [noDotPair_cons_space]
    exact ih (fun x hx => h x (by simp [hx])) b

theorem rdr_through_spaces : ∀ (sp : List Char), (∀ c ∈ sp, c = ' ') →
    ∀ (d : Char) (rest : List Char) (b : Bool), isDotChar d = false → d ≠ ' ' →
    rdr b (sp ++ d :: rest) = sp ++ d :: rdr false rest := by
  intro sp
  induction sp with
  | nil =>
    intro _ d rest b hd hds
    have h1 : d ≠ '…' := by intro hx; subst hx; simp [isDotChar] at hd
    have h2 : d ≠ '.' := by intro hx; subst hx; simp [isDotChar] at hd
    simp only [List.nil_append]
    rw [rdr_cons_other _ _ _ h1 h2 hds]
  | cons c cs ih =>
    intro h d rest b hd hds
    have hc := h c (by simp)
    subst hc
    rw [List.cons_append, rdr_cons_space,
      ih (fun x hx => h x (by simp [hx])) d rest b hd hds]
    rfl

theorem noDotPair_rdr : ∀ (s : List Char) (b : Bool), noDotPair false (rdr b s) = true := by
  intro s
  induction s with
  | nil => intro _; rfl
  | cons c cs ih =>
    intro b
    by_cases h1 : c = '…'
    · subst h1; rw [rdr_cons_dots]; exact ih true
    · by_cases h2 : c = '.'
      · subst h2
        cases b with
        | true => rw [rdr_cons_dot_true]; exact ih true
        | false =>
          rcases hh : (cs.dropWhile (fun x => x = ' ')).head? with _ | d
          · have hnil : cs.dropWhile (fun x => x = ' ') = [] := by
              rcases hx : cs.dropWhile (fun x => x = ' ') with _ | ⟨y, ys⟩
              · rfl
              · rw [hx] at hh; simp at hh
            have hsp : ∀ x ∈ cs, x = ' ' := by
              intro x hx
              simpa using List.dropWhile_eq_nil_iff.1 hnil x hx
            rw [rdr_dot_end _ hh, rdr_spaces cs hsp false, noDotPair_dot_end _ hh]
            exact noDotPair_spaces cs hsp false
          · by_cases hd : isDotChar d = true
            · rw [rdr_dot_pair _ _ hh hd]; exact ih true
            · have hd2 : isDotChar d = false := by simpa using hd
              obtain ⟨rest, hrest⟩ : ∃ rest, cs.dropWhile (fun x => x = ' ') = d :: rest := by
                rcases hx : cs.dropWhile (fun x => x = ' ') with _ | ⟨y, ys⟩
                · rw [hx] at hh; simp at hh
                · rw [hx] at hh
                  simp only [List.head?_cons, Option.some.injEq] at hh
                  exact ⟨ys, by rw [hh]⟩
              have hspaces : ∀ x ∈ cs.takeWhile (fun x => x = ' '), x = ' ' := by
                intro x hx
                simpa using List.mem_takeWhile_imp hx
              have hdsp : d ≠ ' ' := by
                have := head_dropWhile (fun x => x = ' ') cs d (by rw [hrest]; rfl)
                simpa using this
              have hrw : rdr false cs
                  = cs.takeWhile (fun x => x = ' ') ++ d :: rdr false rest := by
                conv_lhs => rw [← List.takeWhile_append_dropWhile (fun x => x = ' ') cs, hrest]
                exact rdr_through_spaces _ hspaces d rest false hd2 hdsp
              have hla : ((rdr false cs).dropWhile (fun x => x = ' ')).head? = some d := by
                rw [hrw, dropWhile_append_all _ _ _ (fun x hx => by simp [hspaces x hx]),
                  dropWhile_cons_neg _ _ _ (by simp [hdsp])]
                rfl
              rw [rdr_dot_sep _ _ hh hd2, noDotPair_dot_sep _ _ hla hd2]
              exact ih false
      · by_cases h3 : c = ' '
        · subst h3
          rw [rdr_cons_space, noDotPair_cons_space]
          exact ih b
        · rw [rdr_cons_other _ _ _ h1 h2 h3, noDotPair_cons_other _ _ _ h1 h2 h3]
          exact ih false

theorem rdr_mem : ∀ (s : List Char) (b : Bool) (c : Char), c ∈ rdr b s → c ∈ s := by
  intro s
  induction s with
  | nil => intro b c h; simp [rdr] at h
  | cons x cs ih =>
    intro b c h
    by_cases h1 : x = '…'
    · subst h1; rw [rdr_cons_dots] at h; exact List.mem_cons_of_mem _ (ih true c h)
    · by_cases h2 : x = '.'
      · subst h2
        cases b with
        | true => rw [rdr_cons_dot_true] at h; exact List.mem_cons_of_mem _ (ih true c h)
        | false =>
          rcases hh : (cs.dropWhile (fun x => x = ' ')).head? with _ | d
          · rw [rdr_dot_end _ hh] at h
            rcases List.mem_cons.1 h with rfl | h
            · exact List.mem_cons_self _ _
            · exact List.mem_cons_of_mem _ (ih false c h)
          · by_cases hd : isDotChar d = true
            · rw [rdr_dot_pair _ _ hh hd] at h
              exact List.mem_cons_of_mem _ (ih true c h)
            · rw [rdr_dot_sep _ _ hh (by simpa using hd)] at h
              rcases List.mem_cons.1 h with rfl | h
              · exact List.mem_cons_self _ _
              · exact List.mem_cons_of_mem _ (ih false c h)
      · by_cases h3 : x = ' '
        · subst h3
          rw [rdr_cons_space] at h
          rcases List.mem_cons.1 h with rfl | h
          · exact List.mem_cons_self _ _
          · exact List.mem_cons_of_mem _ (ih b c h)
        · rw [rdr_cons_other _ _ _ h1 h2 h3] at h
          rcases List.mem_cons.1 h with rfl | h
          · exact List.mem_cons_self _ _
          · exact List.mem_cons_of_mem _ (ih false c h)

theorem rdr_append_of_last : ∀ (s : List Char) (c₀ : Char), s.getLast? = some c₀ →
    isDotChar c₀ = false → c₀ ≠ ' ' → ∀ (t : List Char) (b : Bool),
    rdr b (s ++ t) = rdr b s ++ rdr false t := by
  intro s
  induction s with
  | nil => intro c₀ h; simp at h
  | cons c cs ih =>
    intro c₀ hlast hdot hsp t b
    cases cs with
    | nil =>
      have hc : c = c₀ := by simpa using hlast
      subst hc
      have h1 : c ≠ '…' := by intro hx; subst hx; simp [isDotChar] at hdot
      have h2 : c ≠ '.' := by intro hx; subst hx; simp [isDotChar] at hdot
      simp only [List.singleton_append, List.cons_append, List.nil_append]
      rw [rdr_cons_other _ _ _ h1 h2 hsp,
        rdr_cons_other _ _ ([] : List Char) h1 h2 hsp]
      rfl
    | cons c2 cs2 =>
      have hlast2 : (c2 :: cs2).getLast? = some c₀ := by
        rwa [List.getLast?_cons_cons] at hlast
      by_cases h1 : c = '…'
      · subst h1
        rw [List.cons_append, rdr_cons_dots, rdr_cons_dots]
        exact ih c₀ hlast2 hdot hsp t true
      · by_cases h2 : c = '.'
        · subst h2
          cases b with
          | true =>
            rw [List.cons_append, rdr_cons_dot_true, rdr_cons_dot_true]
            exact ih c₀ hlast2 hdot hsp t true
          | false =>
            have hne : (c2 :: cs2).dropWhile (fun x => x = ' ') ≠ [] := by
              intro hnil
              have hall := List.dropWhile_eq_nil_iff.1 hnil
              have hmem : c₀ ∈ c2 :: cs2 := mem_of_getLast hlast2
              exact hsp (by simpa using hall c₀ hmem)
            obtain ⟨d, hd⟩ : ∃ d, ((c2 :: cs2).dropWhile (fun x => x = ' ')).head? = some d := by
              obtain ⟨y, ys, hy⟩ := List.exists_cons_of_ne_nil hne
              exact ⟨y, by rw [hy]; rfl⟩
            have hla : (((c2 :: cs2) ++ t).dropWhile (fun x => x = ' ')).head? = some d := by
              rw [lookahead_append _ t hne, hd]
            by_cases hdd : isDotChar d = true
            · rw [List.cons_append, rdr_dot_pair _ _ hla hdd, rdr_dot_pair _ _ hd hdd]
              exact ih c₀ hlast2 hdot hsp t true
            · have hdd2 : isDotChar d = false := by simpa using hdd
              rw [List.cons_append, rdr_dot_sep _ _ hla hdd2, rdr_dot_sep _ _ hd hdd2,
                ih c₀ hlast2 hdot hsp t false]
              rfl
        · by_cases h3 : c = ' '
          · subst h3
            rw [List.cons_append, rdr_cons_space, rdr_cons_space,
              ih c₀ hlast2 hdot hsp t b]
            rfl
          · rw [List.cons_append, rdr_cons_other _ _ _ h1 h2 h3,
              rdr_cons_other _ _ _ h1 h2 h3, ih c₀ hlast2 hdot hsp t false]
            rfl

theorem rdr_dots_true (n : Nat) : rdr true (List.replicate n '.') = [] := by
  induction n with
  | zero => rfl
  | succ n ih => rw [List.replicate_succ, rdr_cons_dot_true, ih]

theorem rdr_dots_ge_two (L : Nat) (h : 2 ≤ L) :
    rdr false (List.replicate L '.') = [] := by
  obtain ⟨l, rfl⟩ : ∃ l, L = l + 2 := ⟨L - 2, by omega⟩
  rw [show l + 2 = (l + 1) + 1 from rfl, List.replicate_succ]
  have hh : ((List.replicate (l + 1) '.').dropWhile (fun x => x = ' ')).head?
      = some '.' := by
    rw [List.replicate_succ, dropWhile_cons_neg _ _ _ (by simp)]
    rfl
  rw [rdr_dot_pair _ _ hh (by simp [isDotChar])]
  exact rdr_dots_true (l + 1)

theorem rdr_single_dot : rdr false ['.'] = ['.'] := by
  have hh : (([] : List Char).dropWhile (fun x => x = ' ')).head? = none := rfl
  rw [rdr_dot_end _ hh]
  rfl

end Toc

namespace Toc

/-! ### Properties of `clean` -/

theorem isJunk_false_parts {c : Char} (h : isJunk c = false) :
    isDotChar c = false ∧ isWS c = false := by
  unfold isJunk at h
  exact ⟨by cases hx : isDotChar c <;> simp [hx] at h ⊢,
    by cases hx : isWS c <;> simp [hx] at h ⊢⟩

theorem isWS_false_ne_space {c : Char} (h : isWS c = false) : c ≠ ' ' := by
  intro hx
  subst hx
  simp [isWS] at h

theorem getLast?_of_ne_nil {l : List Char} (h : l ≠ []) :
    ∃ c, l.getLast? = some c := by
  rcases hg : l.getLast? with _ | c
  · rw [List.getLast?_eq_head?_reverse] at hg
    rcases hr : l.reverse with _ | ⟨x, xs⟩
    · exact absurd (by simpa using congrArg List.reverse hr) h
    · rw [hr] at hg; simp at hg
  · exact ⟨c, rfl⟩

theorem clean_goodLabel (s : List Char) : GoodLabel (clean s) := by
  unfold clean GoodLabel
  set y := rdr false (s.filter (fun c => !isArrowChar c)) with hy
  set z := List.dropWhile isWS y with hz
  refine ⟨?_, ?_, ?_, ?_⟩
  · intro c hc
    have hcz : c ∈ z := dropTrailing_mem _ _ _ hc
    have hcy : c ∈ y := (List.dropWhile_suffix (l := y) isWS).sublist.mem hcz
    have hcf : c ∈ s.filter (fun c => !isArrowChar c) := rdr_mem _ _ _ hcy
    have := (List.mem_filter.1 hcf).2
    simpa using this
  · have h1 : noDotPair false y = true := noDotPair_rdr _ _
    have h2 : noDotPair false z = true := by
      have hsplit : List.takeWhile isWS y ++ z = y := List.takeWhile_append_dropWhile _ _
      exact noDotPair_drop _ _ false (by rw [hsplit]; exact h1)
    have hsplit2 : dropTrailing isJunk z ++ takeTrailing isJunk z = z :=
      dropTrailing_append_takeTrailing _ _
    exact noDotPair_take _ _ false (by rw [hsplit2]; exact h2)
  · intro c hc
    have hsplit2 : dropTrailing isJunk z ++ takeTrailing isJunk z = z :=
      dropTrailing_append_takeTrailing _ _
    have hzc : z.head? = some c := by
      rw [← hsplit2]
      exact head?_of_append_left _ _ _ hc
    exact head_dropWhile isWS y c hzc
  · intro c hc
    exact dropTrailing_getLast _ _ _ hc

end Toc

namespace Toc

theorem clean_fix (l : List Char) (h : GoodLabel l) : clean l = l := by
  obtain ⟨harrow, hnd, hhead, hlast⟩ := h
  unfold clean
  rw [List.filter_eq_self.2 (fun c hc => by simp [harrow c hc])]
  rw [rdr_of_noDotPair l false hnd]
  have hdw : List.dropWhile isWS l = l := by
    cases l with
    | nil => rfl
    | cons x xs => exact dropWhile_cons_neg _ _ _ (hhead x rfl)
  rw [hdw]
  exact dropTrailing_nop _ _ hlast

theorem clean_append_dots (l : List Char) (h : GoodLabel l) (L : Nat) (hL : 1 ≤ L) :
    clean (l ++ List.replicate L '.') = l := by
  obtain ⟨harrow, hnd, hhead, hlast⟩ := h
  unfold clean
  have hfil : List.filter (fun c => !isArrowChar c) (l ++ List.replicate L '.')
      = l ++ List.replicate L '.' := by
    rw [List.filter_eq_self]
    intro a ha
    rcases List.mem_append.1 ha with ha | ha
    · simp [harrow a ha]
    · have := List.eq_of_mem_replicate ha
      subst this
      decide
  rw [hfil]
  cases l with
  | nil =>
    simp only [List.nil_append]
    rcases Nat.lt_or_ge L 2 with h2 | h2
    · have hL1 : L = 1 := by omega
      subst hL1
      rw [show List.replicate 1 '.' = ['.'] from rfl, rdr_single_dot]
      decide
    · rw [rdr_dots_ge_two L h2]
      rfl
  | cons x xs =>
    obtain ⟨c₀, hc₀⟩ := getLast?_of_ne_nil (l := x :: xs) (by simp)
    have hj := hlast c₀ hc₀
    obtain ⟨hdot, hws⟩ := isJunk_false_parts hj
    have hsp := isWS_false_ne_space hws
    rw [rdr_append_of_last (x :: xs) c₀ hc₀ hdot hsp _ false]
    rw [rdr_of_noDotPair _ false hnd]
    have hx : isWS x = false := hhead x rfl
    rcases Nat.lt_or_ge L 2 with h2 | h2
    · have hL1 : L = 1 := by omega
      subst hL1
      rw [show List.replicate 1 '.' = ['.'] from rfl, rdr_single_dot]
      rw [show (x :: xs) ++ ['.'] = x :: (xs ++ ['.']) from rfl]
      rw [dropWhile_cons_neg _ _ _ hx]
      rw [show x :: (xs ++ ['.']) = (x :: xs) ++ ['.'] from rfl]
      exact (takeTrailing_split isJunk (x :: xs) ['.'] c₀ hc₀ hj
        (by intro c hc; simp only [List.mem_singleton] at hc; subst hc; decide)).2
    · rw [rdr_dots_ge_two L h2, List.append_nil]
      rw [dropWhile_cons_neg _ _ _ hx]
      exact dropTrailing_nop _ _ hlast

end Toc

namespace Toc

/-! ### Character-class and page-token facts -/

theorem roman_char_facts {c : Char} (h : isRomanChar c = true) :
    isRomanChar c.toUpper = true ∧ c.toUpper.toUpper = c.toUpper
    ∧ c.toUpper.isLower = false ∧ c.isDigit = false ∧ isWS c = false
    ∧ isDotChar c = false := by
  unfold isRomanChar at h
  simp only [Bool.or_eq_true, decide_eq_true_eq] at h
  rcases h with ((((((((((((rfl | rfl) | rfl) | rfl) | rfl) | rfl) | rfl) | rfl)
      | rfl) | rfl) | rfl) | rfl) | rfl) | rfl
    <;> refine ⟨by decide, by decide, by decide, by decide, by decide, by decide⟩

theorem digit_char_facts {c : Char} (h : c.isDigit = true) :
    isWS c = false ∧ isDotChar c = false ∧ isRomanChar c = false := by
  refine ⟨?_, ?_, ?_⟩
  · rcases hws : isWS c with _ | _
    · rfl
    · unfold isWS at hws
      simp only [Bool.or_eq_true, decide_eq_true_eq] at hws
      rcases hws with rfl | rfl <;> exact absurd h (by decide)
  · rcases hdc : isDotChar c with _ | _
    · rfl
    · unfold isDotChar at hdc
      simp only [Bool.or_eq_true, decide_eq_true_eq] at hdc
      rcases hdc with rfl | rfl <;> exact absurd h (by decide)
  · rcases hr : isRomanChar c with _ | _
    · rfl
    · have := (roman_char_facts hr).2.2.2.1
      rw [this] at h
      exact absurd h (by simp)

theorem map_toUpper_roman_idem (t : List Char) (h : ∀ c ∈ t, isRomanChar c = true) :
    (t.map Char.toUpper).map Char.toUpper = t.map Char.toUpper := by
  rw [List.map_map]
  exact List.map_congr_left fun a ha => (roman_char_facts (h a ha)).2.1

theorem map_toUpper_not_mixed (t : List Char) (h : ∀ c ∈ t, isRomanChar c = true) :
    isMixedCase (t.map Char.toUpper) = false := by
  unfold isMixedCase
  have hax : (t.map Char.toUpper).any Char.isLower = false := by
    rw [Bool.eq_false_iff]
    intro hx
    rw [List.any_eq_true] at hx
    obtain ⟨x, hxm, hxl⟩ := hx
    rw [List.mem_map] at hxm
    obtain ⟨a, ham, rfl⟩ := hxm
    rw [(roman_char_facts (h a ham)).2.2.1] at hxl
    exact absurd hxl (by simp)
  rw [hax]
  rfl

theorem pageTok_roman_eq (t : List Char) (v : Nat) :
    pageTok (.roman t v) = if isMixedCase t = true then t.map Char.toUpper else t := rfl

theorem pageTok_roman_chars (t : List Char) (v : Nat)
    (h : ∀ c ∈ t, isRomanChar c = true) :
    ∀ c ∈ pageTok (.roman t v), isRomanChar c = true := by
  intro c hc
  rw [pageTok_roman_eq] at hc
  rcases hm : isMixedCase t with _ | _
  · rw [hm] at hc
    simp only [Bool.false_eq_true, if_false] at hc
    exact h c hc
  · rw [hm] at hc
    simp only [if_true] at hc
    rw [List.mem_map] at hc
    obtain ⟨a, ham, rfl⟩ := hc
    exact (roman_char_facts (h a ham)).1

theorem pageTok_roman_upper (t : List Char) (v : Nat)
    (h : ∀ c ∈ t, isRomanChar c = true) :
    (pageTok (.roman t v)).map Char.toUpper = t.map Char.toUpper := by
  rw [pageTok_roman_eq]
  rcases hm : isMixedCase t with _ | _
  · simp
  · simp only [if_true]
    exact map_toUpper_roman_idem t h

theorem pageTok_roman_stable (t : List Char) (v : Nat)
    (h : ∀ c ∈ t, isRomanChar c = true) :
    pageTok (.roman (pageTok (.roman t v)) v) = pageTok (.roman t v) := by
  rcases hm : isMixedCase t with _ | _
  · have h1 : pageTok (.roman t v) = t := by
      rw [pageTok_roman_eq, hm]
      simp
    rw [pageTok_roman_eq, h1, hm]
    simp
  · have h1 : pageTok (.roman t v) = t.map Char.toUpper := by
      rw [pageTok_roman_eq, hm]
      simp
    rw [pageTok_roman_eq, h1, map_toUpper_not_mixed t h]
    simp

theorem pageTok_ne_nil (pn : PageNum) (h : GoodPage pn) : pageTok pn ≠ [] := by
  cases pn with
  | arabic t => exact h.1
  | roman t v =>
    rw [pageTok_roman_eq]
    split
    · simpa using h.1
    · exact h.1

theorem indentWidth_replicate (n : Nat) :
    indentWidth (List.replicate n ' ') = n := by
  unfold indentWidth
  rw [List.map_replicate]
  simp

end Toc

namespace Toc

/-! ### Classification inversion -/

theorem classify_eq_match (p : List Char) :
    classify p =
      (match pageSuffix (dropTrailing isWS (p.dropWhile isWS)) with
       | some pp =>
         if hasAlnum (clean pp.1) = true then
           (⟨.tocEntry, clean pp.1, some pp.2, indentWidth (p.takeWhile isWS)⟩ : ClassifiedEntry)
         else ⟨.unmatched, [], none, indentWidth (p.takeWhile isWS)⟩
       | none =>
         match abbrevParse (dropTrailing isWS (p.dropWhile isWS)) with
         | some lab => ⟨.abbreviation, lab, none, indentWidth (p.takeWhile isWS)⟩
         | none => ⟨.unmatched, [], none, indentWidth (p.takeWhile isWS)⟩) := rfl

theorem classify_of_page (p : List Char) (pp : List Char × PageNum)
    (hp : pageSuffix (dropTrailing isWS (p.dropWhile isWS)) = some pp)
    (ha : hasAlnum (clean pp.1) = true) :
    classify p = ⟨.tocEntry, clean pp.1, some pp.2, indentWidth (p.takeWhile isWS)⟩ := by
  rw [classify_eq_match, hp]
  simp only [ha, if_true]

theorem classify_of_abbrev (p : List Char) (lab : List Char)
    (hp : pageSuffix (dropTrailing isWS (p.dropWhile isWS)) = none)
    (ha : abbrevParse (dropTrailing isWS (p.dropWhile isWS)) = some lab) :
    classify p = ⟨.abbreviation, lab, none, indentWidth (p.takeWhile isWS)⟩ := by
  rw [classify_eq_match, hp, ha]

theorem pageSuffix_good (s pre : List Char) (pn : PageNum)
    (h : pageSuffix s = some (pre, pn)) : GoodPage pn := by
  simp only [pageSuffix] at h
  rcases hds : (takeTrailing Char.isDigit s).isEmpty with _ | _
  · rw [hds] at h
    simp only [Bool.not_false, if_true, Option.some.injEq, Prod.mk.injEq] at h
    obtain ⟨hpre, hpn⟩ := h
    subst hpn
    refine ⟨?_, takeTrailing_mem _ _⟩
    intro hx
    rw [hx] at hds
    simp at hds
  · rw [hds] at h
    simp only [Bool.not_true, Bool.false_eq_true, if_false] at h
    rcases hrs : (takeTrailing isRomanChar s).isEmpty with _ | _
    · rw [hrs] at h
      simp only [Bool.false_eq_true, if_false] at h
      rcases hv : romanValue ((takeTrailing isRomanChar s).map Char.toUpper) with _ | v
      · rw [hv] at h; simp at h
      · rw [hv] at h
        simp only [Option.some.injEq, Prod.mk.injEq] at h
        obtain ⟨hpre, hpn⟩ := h
        subst hpn
        refine ⟨?_, takeTrailing_mem _ _, hv⟩
        intro hx
        rw [hx] at hrs
        simp at hrs
    · rw [hrs] at h
      simp at h

theorem classify_toc_shape (p : List Char) (h : (classify p).kind = .tocEntry) :
    GoodLabel (classify p).label ∧ hasAlnum (classify p).label = true
    ∧ ∃ pn, (classify p).page = some pn ∧ GoodPage pn := by
  rcases hp : pageSuffix (dropTrailing isWS (p.dropWhile isWS)) with _ | ⟨pre, pn⟩
  · exfalso
    rw [classify_eq_match, hp] at h
    rcases ha : abbrevParse (dropTrailing isWS (p.dropWhile isWS)) with _ | lab <;>
      rw [ha] at h <;> simp at h
  · rcases hal : hasAlnum (clean pre) with _ | _
    · exfalso
      rw [classify_eq_match, hp] at h
      simp only [hal, Bool.false_eq_true, if_false] at h
      simp at h
    · rw [classify_of_page p (pre, pn) hp hal]
      exact ⟨clean_goodLabel pre, hal, pn, rfl, pageSuffix_good _ pre pn hp⟩

end Toc

namespace Toc

/-! ### Round trip: classifying a rendered TOC line -/

theorem strip_frame (n : Nat) (B : List Char) (bx : Char) (bxs : List Char)
    (hB : B = bx :: bxs) (hhead : isWS bx = false)
    (pz : Char) (hlast : B.getLast? = some pz) (hzws : isWS pz = false) :
    (List.replicate n ' ' ++ B).takeWhile isWS = List.replicate n ' '
    ∧ (List.replicate n ' ' ++ B).dropWhile isWS = B
    ∧ dropTrailing isWS B = B := by
  have hindws : ∀ x ∈ List.replicate n ' ', isWS x = true := fun x hx => by
    rw [List.eq_of_mem_replicate hx]
    rfl
  refine ⟨?_, ?_, ?_⟩
  · rw [Web.takeWhile_all_append isWS _ B hindws, hB,
      takeWhile_cons_neg _ _ _ hhead, List.append_nil]
  · rw [dropWhile_append_all isWS _ B hindws, hB, dropWhile_cons_neg _ _ _ hhead, ← hB]
  · exact dropTrailing_nop _ _ fun x hx => by rw [hlast] at hx; cases hx; exact hzws

theorem classify_frame (n : Nat) (B : List Char) (bx : Char) (bxs : List Char)
    (hB : B = bx :: bxs) (hhead : isWS bx = false)
    (pz : Char) (hlast : B.getLast? = some pz) (hzws : isWS pz = false)
    (pre : List Char) (pn' : PageNum)
    (hps : pageSuffix B = some (pre, pn'))
    (ha : hasAlnum (clean pre) = true) :
    classify (List.replicate n ' ' ++ B) = ⟨.tocEntry, clean pre, some pn', n⟩ := by
  obtain ⟨h1, h3, h4⟩ := strip_frame n B bx bxs hB hhead pz hlast hzws
  have hp' : pageSuffix
      (dropTrailing isWS ((List.replicate n ' ' ++ B).dropWhile isWS)) = some (pre, pn') := by
    rw [h3, h4, hps]
  rw [classify_of_page _ _ hp' ha, h1, indentWidth_replicate]

theorem classify_render_toc (c : RenderConfig) (e : ClassifiedEntry) (lv : Nat)
    (hk : e.kind = .tocEntry)
    (hlab : GoodLabel e.label) (hal : hasAlnum e.label = true)
    (pn : PageNum) (hpage : e.page = some pn) (hgp : GoodPage pn)
    (hld : c.leaderChar = '.') (hml : 1 ≤ c.minLeaderLength) :
    ∃ pn', classify (render c e lv)
        = ⟨.tocEntry, e.label, some pn', c.indentPerLevel * lv⟩
      ∧ pageTok pn' = pageTok pn := by
  have hlabne : e.label ≠ [] := by
    intro hx
    rw [hx] at hal
    simp [hasAlnum] at hal
  obtain ⟨lx, lxs, hlx⟩ := List.exists_cons_of_ne_nil hlabne
  have hheadlab : isWS lx = false := hlab.2.2.1 lx (by rw [hlx]; rfl)
  have hptne : pageTok pn ≠ [] := pageTok_ne_nil pn hgp
  obtain ⟨pz, hpz⟩ := getLast?_of_ne_nil hptne
  have hpzmem : pz ∈ pageTok pn := mem_of_getLast hpz
  have hptclass : ∀ x ∈ pageTok pn, isWS x = false := by
    intro x hx
    cases pn with
    | arabic t => exact (digit_char_facts (hgp.2 x hx)).1
    | roman t v => exact (roman_char_facts (pageTok_roman_chars t v hgp.2.1 x hx)).2.2.2.2.1
  cases pn with
  | arabic t =>
    set LL := leaderLen c (List.replicate (c.indentPerLevel * lv) ' ').length
      e.label.length (pageTok (PageNum.arabic t)).length with hLLdef
    have hLL1 : 1 ≤ LL := le_trans hml (le_max_left _ _)
    have hleadlast : (e.label ++ List.replicate LL '.').getLast? = some '.' := by
      apply getLast?_append_right
      rw [List.getLast?_replicate, if_neg (by omega)]
    have hB : (e.label ++ List.replicate LL '.') ++ pageTok (PageNum.arabic t)
        = lx :: ((lxs ++ List.replicate LL '.') ++ pageTok (PageNum.arabic t)) := by
      rw [hlx]
      simp [List.cons_append]
    have hBlast : ((e.label ++ List.replicate LL '.') ++ pageTok (PageNum.arabic t)).getLast?
        = some pz := getLast?_append_right _ _ _ hpz
    have htt := takeTrailing_split Char.isDigit (e.label ++ List.replicate LL '.')
      (pageTok (PageNum.arabic t)) '.' hleadlast (by decide) (fun x hx => hgp.2 x hx)
    have hps : pageSuffix ((e.label ++ List.replicate LL '.') ++ pageTok (PageNum.arabic t))
        = some (e.label ++ List.replicate LL '.', .arabic t) := by
      simp only [pageSuffix]
      rw [htt.1, htt.2]
      have hcond : (!(pageTok (PageNum.arabic t)).isEmpty) = true := by
        obtain ⟨a, as, ha⟩ := List.exists_cons_of_ne_nil hptne
        rw [ha]
        rfl
      rw [if_pos hcond]
      rfl
    have hclean : clean (e.label ++ List.replicate LL '.') = e.label :=
      clean_append_dots _ hlab LL hLL1
    have hal' : hasAlnum (clean (e.label ++ List.replicate LL '.')) = true := by
      rw [hclean]; exact hal
    have hmain := classify_frame (c.indentPerLevel * lv) _ lx
      ((lxs ++ List.replicate LL '.') ++ pageTok (PageNum.arabic t)) hB hheadlab
      pz hBlast (hptclass pz hpzmem) _ _ hps hal'
    have hline : render c e lv
        = List.replicate (c.indentPerLevel * lv) ' '
          ++ ((e.label ++ List.replicate LL '.') ++ pageTok (PageNum.arabic t)) := by
      unfold render
      rw [hk, hpage, hld]
      simp only [hLLdef, List.append_assoc]
    refine ⟨.arabic t, ?_, rfl⟩
    rw [hline, hmain, hclean]
  | roman t v =>
    set LL := leaderLen c (List.replicate (c.indentPerLevel * lv) ' ').length
      e.label.length (pageTok (PageNum.roman t v)).length with hLLdef
    have hLL1 : 1 ≤ LL := le_trans hml (le_max_left _ _)
    have hleadlast : (e.label ++ List.replicate LL '.').getLast? = some '.' := by
      apply getLast?_append_right
      rw [List.getLast?_replicate, if_neg (by omega)]
    have hB : (e.label ++ List.replicate LL '.') ++ pageTok (PageNum.roman t v)
        = lx :: ((lxs ++ List.replicate LL '.') ++ pageTok (PageNum.roman t v)) := by
      rw [hlx]
      simp [List.cons_append]
    have hBlast : ((e.label ++ List.replicate LL '.') ++ pageTok (PageNum.roman t v)).getLast?
        = some pz := getLast?_append_right _ _ _ hpz
    have hptroman : ∀ x ∈ pageTok (PageNum.roman t v), isRomanChar x = true :=
      pageTok_roman_chars t v hgp.2.1
    have hdignil : takeTrailing Char.isDigit
        ((e.label ++ List.replicate LL '.') ++ pageTok (PageNum.roman t v)) = [] := by
      apply takeTrailing_nil _ _ pz hBlast
      exact (roman_char_facts (hptroman pz hpzmem)).2.2.2.1
    have hro := takeTrailing_split isRomanChar (e.label ++ List.replicate LL '.')
      (pageTok (PageNum.roman t v)) '.' hleadlast (by decide) hptroman
    have hval : romanValue ((pageTok (PageNum.roman t v)).map Char.toUpper) = some v := by
      rw [pageTok_roman_upper t v hgp.2.1]
      exact hgp.2.2
    have hps : pageSuffix ((e.label ++ List.replicate LL '.') ++ pageTok (PageNum.roman t v))
        = some (e.label ++ List.replicate LL '.', .roman (pageTok (PageNum.roman t v)) v) := by
      simp only [pageSuffix]
      rw [hdignil]
      simp only [List.isEmpty_nil, Bool.not_true, Bool.false_eq_true, if_false]
      rw [hro.1, hro.2, hval]
      have hcond : (pageTok (PageNum.roman t v)).isEmpty = false := by
        obtain ⟨a, as, ha⟩ := List.exists_cons_of_ne_nil hptne
        rw [ha]
        rfl
      rw [hcond]
      simp
    have hclean : clean (e.label ++ List.replicate LL '.') = e.label :=
      clean_append_dots _ hlab LL hLL1
    have hal' : hasAlnum (clean (e.label ++ List.replicate LL '.')) = true := by
      rw [hclean]; exact hal
    have hmain := classify_frame (c.indentPerLevel * lv) _ lx
      ((lxs ++ List.replicate LL '.') ++ pageTok (PageNum.roman t v)) hB hheadlab
      pz hBlast (hptclass pz hpzmem) _ _ hps hal'
    have hline : render c e lv
        = List.replicate (c.indentPerLevel * lv) ' '
          ++ ((e.label ++ List.replicate LL '.') ++ pageTok (PageNum.roman t v)) := by
      unfold render
      rw [hk, hpage, hld]
      simp only [hLLdef, List.append_assoc]
    refine ⟨.roman (pageTok (PageNum.roman t v)) v, ?_, pageTok_roman_stable t v hgp.2.1⟩
    rw [hline, hmain, hclean]

end Toc

namespace Toc

/-! ### Abbreviation side: support lemmas -/

theorem alpha_not_ws {c : Char} (h : c.isAlpha = true) : isWS c = false := by
  rcases hws : isWS c with _ | _
  · rfl
  · unfold isWS at hws
    simp only [Bool.or_eq_true, decide_eq_true_eq] at hws
    rcases hws with rfl | rfl <;> exact absurd h (by decide)

theorem pageSuffix_none (s : List Char) (h : pageSuffix s = none) :
    takeTrailing Char.isDigit s = []
    ∧ (takeTrailing isRomanChar s = []
        ∨ romanValue ((takeTrailing isRomanChar s).map Char.toUpper) = none) := by
  simp only [pageSuffix] at h
  rcases hds : (takeTrailing Char.isDigit s).isEmpty with _ | _
  · rw [hds] at h
    simp at h
  · refine ⟨List.isEmpty_iff.1 hds, ?_⟩
    rw [hds] at h
    simp only [Bool.not_true, Bool.false_eq_true, if_false] at h
    rcases hrs : (takeTrailing isRomanChar s).isEmpty with _ | _
    · rw [hrs] at h
      simp only [Bool.false_eq_true, if_false] at h
      rcases hv : romanValue ((takeTrailing isRomanChar s).map Char.toUpper) with _ | v
      · right; exact hv ▸ rfl
      · rw [hv] at h; simp at h
    · left
      exact List.isEmpty_iff.1 hrs

theorem pageSuffix_none_of (s : List Char)
    (h1 : takeTrailing Char.isDigit s = [])
    (h2 : takeTrailing isRomanChar s = []
        ∨ romanValue ((takeTrailing isRomanChar s).map Char.toUpper) = none) :
    pageSuffix s = none := by
  simp only [pageSuffix]
  rw [h1]
  simp only [List.isEmpty_nil, Bool.not_true, Bool.false_eq_true, if_false]
  rcases h2 with h2 | h2
  · rw [h2]
    simp
  · rcases hrs : (takeTrailing isRomanChar s).isEmpty with _ | _
    · rw [h2]
      simp
    · simp [hrs]

theorem takeTrailing_append_of_bad (p : Char → Bool) (x exp : List Char)
    (h : ¬ ∀ c ∈ exp, p c = true) :
    takeTrailing p (x ++ exp) = takeTrailing p exp := by
  unfold takeTrailing
  rw [List.reverse_append]
  have hne : exp.reverse.dropWhile p ≠ [] := by
    intro hx
    exact h fun c hc => List.dropWhile_eq_nil_iff.1 hx c (List.mem_reverse.2 hc)
  rw [takeWhile_stops p exp.reverse x.reverse hne]

theorem getLast?_of_suffix {exp s : List Char} (h : exp <:+ s) (hne : exp ≠ []) :
    s.getLast? = exp.getLast? := by
  obtain ⟨t, rfl⟩ := h
  obtain ⟨c, hc⟩ := getLast?_of_ne_nil hne
  rw [hc, getLast?_append_right _ _ _ hc]

theorem all_spaces_getLast (sp : List Char) (hne : sp ≠ [])
    (h : ∀ c ∈ sp, c = ' ') : sp.getLast? = some ' ' := by
  obtain ⟨c, hc⟩ := getLast?_of_ne_nil hne
  rw [hc, h c (mem_of_getLast hc)]

end Toc

namespace Toc

/-! ### Dissection of a successful abbreviation parse -/

theorem abbrevParse_some (s lab : List Char) (h : abbrevParse s = some lab) :
    ∃ tok exp a csep,
      lab = (tok ++ " — ".data) ++ exp
      ∧ tok ≠ [] ∧ (∀ c ∈ tok, c.isAlpha = true)
      ∧ tok.length ≤ 10 ∧ (allCaps tok || titleCase tok) = true
      ∧ exp ≠ [] ∧ (∀ ce, exp.head? = some ce → ce ≠ ' ')
      ∧ s = a ++ exp ∧ a.getLast? = some csep
      ∧ (csep = ':' ∨ csep = '-' ∨ csep = '—' ∨ csep = ' ') := by
  simp only [abbrevParse] at h
  by_cases hguard : ((s.takeWhile Char.isAlpha).isEmpty
      || decide (10 < (s.takeWhile Char.isAlpha).length)
      || !(allCaps (s.takeWhile Char.isAlpha) || titleCase (s.takeWhile Char.isAlpha))) = true
  · rw [if_pos hguard] at h
    exact absurd h (by simp)
  · rw [if_neg hguard] at h
    simp only [Bool.or_eq_true, decide_eq_true_eq, Bool.not_eq_true', not_or] at hguard
    obtain ⟨⟨hempty, hlen⟩, hcaps⟩ := hguard
    replace hcaps : (allCaps (s.takeWhile Char.isAlpha)
        || titleCase (s.takeWhile Char.isAlpha)) = true := by
      rcases hb : (allCaps (s.takeWhile Char.isAlpha)
          || titleCase (s.takeWhile Char.isAlpha)) with _ | _
      · exact absurd hb hcaps
      · rfl
    have htokne : s.takeWhile Char.isAlpha ≠ [] := by
      intro hx
      rw [hx] at hempty
      simp at hempty
    have htokalpha : ∀ c ∈ s.takeWhile Char.isAlpha, c.isAlpha = true :=
      fun c hc => List.mem_takeWhile_imp hc
    have htoklen : (s.takeWhile Char.isAlpha).length ≤ 10 := by omega
    split at h
    next c r hsplit =>
      have hsbase : s = (s.takeWhile Char.isAlpha
          ++ (s.dropWhile Char.isAlpha).takeWhile (fun c => c = ' ')) ++ (c :: r) := by
        conv_lhs => rw [← List.takeWhile_append_dropWhile Char.isAlpha s]
        conv_lhs =>
          rw [← List.takeWhile_append_dropWhile (fun c => c = ' ') (s.dropWhile Char.isAlpha),
            hsplit]
        simp [List.append_assoc]
      have hcne : c ≠ ' ' := by
        have := head_dropWhile (fun c => c = ' ') (s.dropWhile Char.isAlpha) c
          (by rw [hsplit]; rfl)
        simpa using this
      by_cases hsep : isSepChar c = true
      · rw [if_pos hsep] at h
        by_cases hexp : (r.dropWhile (fun x => x = ' ')).isEmpty = true
        · rw [if_pos hexp] at h
          exact absurd h (by simp)
        · rw [if_neg hexp] at h
          have hlab := (Option.some.inj h).symm
          have hexpne : r.dropWhile (fun x => x = ' ') ≠ [] := by
            intro hx
            rw [hx] at hexp
            simp at hexp
          have hs' : ((s.takeWhile Char.isAlpha
                ++ (s.dropWhile Char.isAlpha).takeWhile (fun c => c = ' '))
                ++ (c :: r.takeWhile (fun x => x = ' ')))
              ++ r.dropWhile (fun x => x = ' ') = s := by
            rw [List.append_assoc, List.cons_append, List.takeWhile_append_dropWhile]
            exact hsbase.symm
          have hs := hs'.symm
          have hsep3 : (c = ':' ∨ c = '-') ∨ c = '—' := by
            unfold isSepChar at hsep
            simpa using hsep
          rcases hrsp : r.takeWhile (fun x => x = ' ') with _ | ⟨y, ys⟩
          · refine ⟨s.takeWhile Char.isAlpha, r.dropWhile (fun x => x = ' '), _, c,
              by simpa using hlab, htokne, htokalpha, htoklen, hcaps, hexpne, ?_,
              by rw [hrsp] at hs; exact hs, ?_, ?_⟩
            · intro ce hce
              have := head_dropWhile (fun x => x = ' ') r ce hce
              simpa using this
            · exact getLast?_append_right _ _ _ rfl
            · rcases hsep3 with (rfl | rfl) | rfl
              · exact Or.inl rfl
              · exact Or.inr (Or.inl rfl)
              · exact Or.inr (Or.inr (Or.inl rfl))
          · refine ⟨s.takeWhile Char.isAlpha, r.dropWhile (fun x => x = ' '), _, ' ',
              by simpa using hlab, htokne, htokalpha, htoklen, hcaps, hexpne, ?_,
              hs, ?_, Or.inr (Or.inr (Or.inr rfl))⟩
            · intro ce hce
              have := head_dropWhile (fun x => x = ' ') r ce hce
              simpa using this
            · apply getLast?_append_right
              rw [hrsp, List.getLast?_cons_cons]
              apply all_spaces_getLast _ (by simp)
              intro x hx
              have hx2 : x ∈ r.takeWhile (fun x => x = ' ') := by
                rw [hrsp]
                exact hx
              simpa using List.mem_takeWhile_imp hx2
      · rw [if_neg hsep] at h
        by_cases hsp2 : 2 ≤ ((s.dropWhile Char.isAlpha).takeWhile (fun c => c = ' ')).length
        · rw [if_pos hsp2] at h
          have hlab := (Option.some.inj h).symm
          have hspne : (s.dropWhile Char.isAlpha).takeWhile (fun c => c = ' ') ≠ [] := by
            intro hx
            rw [hx] at hsp2
            simp at hsp2
          refine ⟨s.takeWhile Char.isAlpha, c :: r, _, ' ',
            by simpa using hlab, htokne, htokalpha, htoklen, hcaps, by simp, ?_,
            hsbase, ?_, Or.inr (Or.inr (Or.inr rfl))⟩
          · intro ce hce
            simp only [List.head?_cons, Option.some.injEq] at hce
            rw [← hce]
            exact hcne
          · apply getLast?_append_right
            apply all_spaces_getLast _ hspne
            intro x hx
            simpa using List.mem_takeWhile_imp hx
        · rw [if_neg hsp2] at h
          exact absurd h (by simp)
    next hsplit =>
      exact absurd h (by simp)

end Toc

namespace Toc

/-! ### The abbreviation label is a fixed point of the classifier -/

theorem abbrevParse_label (s lab : List Char) (h : abbrevParse s = some lab)
    (hs : pageSuffix s = none)
    (hslast : ∀ cL, s.getLast? = some cL → isWS cL = false) :
    abbrevParse lab = some lab ∧ pageSuffix lab = none
    ∧ (∀ cH, lab.head? = some cH → isWS cH = false)
    ∧ dropTrailing isWS lab = lab ∧ lab ≠ [] := by
  obtain ⟨tok, exp, a, csep, hlab, htokne, htokalpha, htoklen, hcaps, hexpne, hexphead,
    hsdecomp, halast, hcsep⟩ := abbrevParse_some s lab h
  obtain ⟨tx, txs, htx⟩ := List.exists_cons_of_ne_nil htokne
  have htxalpha : tx.isAlpha = true := htokalpha tx (by rw [htx]; simp)
  obtain ⟨ex, hex⟩ : ∃ ex, exp.head? = some ex := by
    obtain ⟨e1, es, he⟩ := List.exists_cons_of_ne_nil hexpne
    exact ⟨e1, by rw [he]; rfl⟩
  have hexsp : ex ≠ ' ' := hexphead ex hex
  obtain ⟨ce, hce⟩ := getLast?_of_ne_nil hexpne
  have hlastexp : s.getLast? = some ce := by
    rw [hsdecomp]
    exact getLast?_append_right _ _ _ hce
  have hcews : isWS ce = false := hslast ce hlastexp
  have hlablast : lab.getLast? = some ce := by
    rw [hlab]
    exact getLast?_append_right _ _ _ hce
  have hlabcons : lab = tx :: ((txs ++ " — ".data) ++ exp) := by
    rw [hlab, htx]
    simp [List.cons_append]
  refine ⟨?_, ?_, ?_, ?_, ?_⟩
  · -- abbrevParse lab = some lab
    have hlab2 : lab = tok ++ (' ' :: '—' :: ' ' :: exp) := by
      rw [hlab, List.append_assoc]
      rfl
    simp only [abbrevParse]
    have htw : lab.takeWhile Char.isAlpha = tok := by
      rw [hlab2, Web.takeWhile_all_append _ _ _ htokalpha,
        takeWhile_cons_neg _ _ _ (by decide), List.append_nil]
    have hdw : lab.dropWhile Char.isAlpha = ' ' :: '—' :: ' ' :: exp := by
      rw [hlab2, dropWhile_append_all _ _ _ htokalpha, dropWhile_cons_neg _ _ _ (by decide)]
    rw [htw, hdw]
    have hguard : (tok.isEmpty || decide (10 < tok.length)
        || !(allCaps tok || titleCase tok)) = false := by
      have h1 : tok.isEmpty = false := by rw [htx]; rfl
      have h2 : decide (10 < tok.length) = false := decide_eq_false (by omega)
      rw [h1, h2, hcaps]
      rfl
    rw [if_neg (by rw [hguard]; simp)]
    have hdwsp : List.dropWhile (fun c => c = ' ') (' ' :: '—' :: ' ' :: exp)
        = '—' :: ' ' :: exp := rfl
    rw [hdwsp]
    split
    next c2 r2 heq =>
      have hc2 : '—' = c2 := by injection heq
      have hr2 : ' ' :: exp = r2 := by injection heq
      subst hc2
      subst hr2
      rw [if_pos (by decide : isSepChar '—' = true)]
      have hexp2 : List.dropWhile (fun x => x = ' ') (' ' :: exp) = exp := by
        have hstep : List.dropWhile (fun x => x = ' ') (' ' :: exp)
            = List.dropWhile (fun x => x = ' ') exp := rfl
        rw [hstep]
        obtain ⟨e1, es, he⟩ := List.exists_cons_of_ne_nil hexpne
        have he1 : e1 = ex := by
          rw [he] at hex
          simpa using hex
        rw [he]
        apply dropWhile_cons_neg
        simp [he1, hexsp]
      rw [hexp2]
      rw [if_neg (by
        intro hx
        exact hexpne (List.isEmpty_iff.1 hx))]
      rw [← hlab]
    next heq => exact absurd heq (by simp)
  · -- pageSuffix lab = none
    have hpn := pageSuffix_none s hs
    have hcsepdig : Char.isDigit csep = false := by
      rcases hcsep with rfl | rfl | rfl | rfl <;> decide
    have hcseprom : isRomanChar csep = false := by
      rcases hcsep with rfl | rfl | rfl | rfl <;> decide
    have hdig : takeTrailing Char.isDigit lab = [] := by
      by_cases hexpall : ∀ c ∈ exp, Char.isDigit c = true
      · have hx : takeTrailing Char.isDigit s = exp := by
          rw [hsdecomp]
          exact (takeTrailing_split _ a exp csep halast hcsepdig hexpall).1
        exact absurd (hx.symm.trans hpn.1) hexpne
      · have h1 : takeTrailing Char.isDigit s = takeTrailing Char.isDigit exp := by
          rw [hsdecomp]
          exact takeTrailing_append_of_bad _ _ _ hexpall
        rw [hlab, takeTrailing_append_of_bad _ _ _ hexpall, ← h1]
        exact hpn.1
    have hrom : takeTrailing isRomanChar lab = takeTrailing isRomanChar s := by
      by_cases hexpall : ∀ c ∈ exp, isRomanChar c = true
      · have h1 : takeTrailing isRomanChar s = exp := by
          rw [hsdecomp]
          exact (takeTrailing_split _ a exp csep halast hcseprom hexpall).1
        have h2 : takeTrailing isRomanChar lab = exp := by
          rw [hlab]
          exact (takeTrailing_split _ (tok ++ " — ".data) exp ' '
            (getLast?_append_right _ _ _ rfl) (by decide) hexpall).1
        rw [h2, h1]
      · have h1 : takeTrailing isRomanChar s = takeTrailing isRomanChar exp := by
          rw [hsdecomp]
          exact takeTrailing_append_of_bad _ _ _ hexpall
        have h2 : takeTrailing isRomanChar lab = takeTrailing isRomanChar exp := by
          rw [hlab]
          exact takeTrailing_append_of_bad _ _ _ hexpall
        rw [h2, h1]
    apply pageSuffix_none_of _ hdig
    rw [hrom]
    exact hpn.2
  · intro cH hch
    rw [hlabcons] at hch
    simp only [List.head?_cons, Option.some.injEq] at hch
    rw [← hch]
    exact alpha_not_ws htxalpha
  · exact dropTrailing_nop _ _ fun x hx => by rw [hlablast] at hx; cases hx; exact hcews
  · rw [hlabcons]
    simp

end Toc

namespace Toc

theorem classify_abbrev_shape (p : List Char) (h : (classify p).kind = .abbreviation) :
    abbrevParse (classify p).label = some (classify p).label
    ∧ pageSuffix (classify p).label = none
    ∧ (∀ cH, (classify p).label.head? = some cH → isWS cH = false)
    ∧ dropTrailing isWS (classify p).label = (classify p).label
    ∧ (classify p).label ≠ [] ∧ (classify p).page = none := by
  rcases hp : pageSuffix (dropTrailing isWS (p.dropWhile isWS)) with _ | pp
  · rcases ha : abbrevParse (dropTrailing isWS (p.dropWhile isWS)) with _ | lab
    · exfalso
      rw [classify_eq_match, hp, ha] at h
      simp at h
    · have hcl := classify_of_abbrev p lab hp ha
      rw [hcl]
      have hslast : ∀ cL, (dropTrailing isWS (p.dropWhile isWS)).getLast? = some cL
          → isWS cL = false :=
        fun cL hcl2 => dropTrailing_getLast _ _ _ hcl2
      have hal := abbrevParse_label _ lab ha hp hslast
      exact ⟨hal.1, hal.2.1, hal.2.2.1, hal.2.2.2.1, hal.2.2.2.2, rfl⟩
  · exfalso
    rw [classify_eq_match, hp] at h
    rcases hal : hasAlnum (clean pp.1) with _ | _ <;> simp [hal] at h

theorem classify_render_abbrev (c : RenderConfig) (e : ClassifiedEntry) (lv : Nat)
    (hk : e.kind = .abbreviation)
    (hap : abbrevParse e.label = some e.label)
    (hpsn : pageSuffix e.label = none)
    (hhead : ∀ cH, e.label.head? = some cH → isWS cH = false)
    (hdt : dropTrailing isWS e.label = e.label)
    (hne : e.label ≠ []) :
    classify (render c e lv) = ⟨.abbreviation, e.label, none, c.indentPerLevel * lv⟩ := by
  have hrender : render c e lv = List.replicate (c.indentPerLevel * lv) ' ' ++ e.label := by
    unfold render
    rw [hk]
  obtain ⟨bx, bxs, hbx⟩ := List.exists_cons_of_ne_nil hne
  have hheadb : isWS bx = false := hhead bx (by rw [hbx]; rfl)
  have hindws : ∀ x ∈ List.replicate (c.indentPerLevel * lv) ' ', isWS x = true := fun x hx => by
    rw [List.eq_of_mem_replicate hx]
    rfl
  have h1 : (List.replicate (c.indentPerLevel * lv) ' ' ++ e.label).takeWhile isWS
      = List.replicate (c.indentPerLevel * lv) ' ' := by
    rw [Web.takeWhile_all_append isWS _ _ hindws, hbx,
      takeWhile_cons_neg _ _ _ hheadb, List.append_nil]
  have h3 : (List.replicate (c.indentPerLevel * lv) ' ' ++ e.label).dropWhile isWS
      = e.label := by
    rw [dropWhile_append_all isWS _ _ hindws, hbx, dropWhile_cons_neg _ _ _ hheadb]
  have hp' : pageSuffix (dropTrailing isWS
      ((List.replicate (c.indentPerLevel * lv) ' ' ++ e.label).dropWhile isWS)) = none := by
    rw [h3, hdt, hpsn]
  have ha' : abbrevParse (dropTrailing isWS
      ((List.replicate (c.indentPerLevel * lv) ' ' ++ e.label).dropWhile isWS))
      = some e.label := by
    rw [h3, hdt, hap]
  rw [hrender, classify_of_abbrev _ _ hp' ha', h1, indentWidth_replicate]

end Toc

namespace Toc

/-! ### Tracker lemmas -/

theorem levelEstimate_zero_depth (c : RenderConfig) (e : ClassifiedEntry)
    (h : levelEstimate c e = 0) : numberingDepth e.label = 0 := by
  unfold levelEstimate at h
  split at h
  · exact h
  · next hcond =>
    by_contra hd
    exact hcond ⟨h, Nat.pos_of_ne_zero hd⟩

theorem levelRaw_zero_est (c : RenderConfig) (e : ClassifiedEntry) (st : TrackerState)
    (h : levelRaw c e st = 0) : levelEstimate c e = 0 := by
  rcases st with _ | ⟨pl, pi⟩
  · exact h
  · replace h : (if pi < e.rawIndentation ∧ levelEstimate c e ≤ pl then pl + 1
        else levelEstimate c e) = 0 := h
    split at h
    · omega
    · exact h

theorem inferLevel_zero_depth (c : RenderConfig) (e : ClassifiedEntry) (st : TrackerState)
    (h : (inferLevel c e st).1 = 0) : numberingDepth e.label = 0 := by
  have hmin : min (levelRaw c e st) maxLevel = 0 := h
  have hraw : levelRaw c e st = 0 := by
    unfold maxLevel at hmin
    omega
  exact levelEstimate_zero_depth _ _ (levelRaw_zero_est _ _ _ hraw)

theorem inferLevel_le (c : RenderConfig) (e : ClassifiedEntry) (st : TrackerState) :
    (inferLevel c e st).1 ≤ maxLevel := Nat.min_le_right _ _

theorem inferLevel_snd (c : RenderConfig) (e : ClassifiedEntry) (st : TrackerState) :
    (inferLevel c e st).2 = some ((inferLevel c e st).1, e.rawIndentation) := rfl

theorem inferLevel_second (c : RenderConfig) (e2 : ClassifiedEntry) (st2 : TrackerState)
    (lv : Nat) (hk : 0 < c.indentPerLevel)
    (hind : e2.rawIndentation = c.indentPerLevel * lv)
    (hlv : lv ≤ maxLevel)
    (hdepth : lv = 0 → numberingDepth e2.label = 0)
    (hst : st2 = none ∨ ∃ pl, st2 = some (pl, c.indentPerLevel * pl)) :
    (inferLevel c e2 st2).1 = lv := by
  have hquant : e2.rawIndentation / c.indentPerLevel = lv := by
    rw [hind]
    exact Nat.mul_div_cancel_left lv hk
  have hest : levelEstimate c e2 = lv := by
    unfold levelEstimate
    rw [hquant]
    rcases Nat.eq_zero_or_pos lv with rfl | hpos
    · rw [if_neg]
      rintro ⟨_, hd⟩
      rw [hdepth rfl] at hd
      exact absurd hd (by omega)
    · rw [if_neg]
      rintro ⟨h0, _⟩
      omega
  have hraw : levelRaw c e2 st2 = lv := by
    rcases hst with rfl | ⟨pl, rfl⟩
    · exact hest
    · show (if c.indentPerLevel * pl < e2.rawIndentation ∧ levelEstimate c e2 ≤ pl
          then pl + 1 else levelEstimate c e2) = lv
      rw [hest, hind]
      rw [if_neg]
      · rintro ⟨h1, h2⟩
        have := Nat.lt_of_mul_lt_mul_left h1
        omega
  show min (levelRaw c e2 st2) maxLevel = lv
  rw [hraw]
  exact Nat.min_eq_left hlv

/-! ### Render congruence and rewriter equations -/

theorem render_congr (c : RenderConfig) (e e2 : ClassifiedEntry) (lv lv2 : Nat)
    (hkind : e2.kind = e.kind) (hlabel : e2.label = e.label)
    (hpage : match e2.page, e.page with
             | some p2, some p1 => pageTok p2 = pageTok p1
             | none, none => True
             | _, _ => False)
    (hind : c.indentPerLevel * lv2 = c.indentPerLevel * lv) :
    render c e2 lv2 = render c e lv := by
  unfold render
  rw [hkind, hlabel, hind]
  revert hpage
  rcases hp2 : e2.page with _ | p2 <;> rcases hp1 : e.page with _ | p1 <;> intro hpage
  · rfl
  · exact (hpage : False).elim
  · exact (hpage : False).elim
  · replace hpage : pageTok p2 = pageTok p1 := hpage
    cases hke : e.kind
    · show List.replicate (c.indentPerLevel * lv) ' ' ++ e.label
          ++ List.replicate (leaderLen c (List.replicate (c.indentPerLevel * lv) ' ').length
              e.label.length (pageTok p2).length) c.leaderChar ++ pageTok p2
        = List.replicate (c.indentPerLevel * lv) ' ' ++ e.label
          ++ List.replicate (leaderLen c (List.replicate (c.indentPerLevel * lv) ' ').length
              e.label.length (pageTok p1).length) c.leaderChar ++ pageTok p1
      rw [hpage]
    · rfl
    · rfl

theorem rewriteStep_unmatched (c : RenderConfig) (st : TrackerState) (p : List Char)
    (h : (classify p).kind = .unmatched) :
    rewriteStep c st p = (p, st) := by
  unfold rewriteStep
  rw [if_pos h]

theorem rewriteStep_matched (c : RenderConfig) (st : TrackerState) (p : List Char)
    (h : ¬ (classify p).kind = .unmatched) :
    rewriteStep c st p = (render c (classify p) (inferLevel c (classify p) st).1,
      (inferLevel c (classify p) st).2) := by
  unfold rewriteStep
  rw [if_neg h]

theorem rewriteGo_cons (c : RenderConfig) (st : TrackerState) (p : List Char)
    (ps : List (List Char)) :
    rewriteGo c st (p :: ps)
      = (rewriteStep c st p).1 :: rewriteGo c (rewriteStep c st p).2 ps := rfl

end Toc

namespace Toc

/-! ### Idempotence of the rewrite pass -/

theorem rewriteGo_cons_unmatched (c : RenderConfig) (st : TrackerState) (p : List Char)
    (ps : List (List Char)) (h : (classify p).kind = .unmatched) :
    rewriteGo c st (p :: ps) = p :: rewriteGo c st ps := by
  rw [rewriteGo_cons, rewriteStep_unmatched c st p h]

theorem rewriteGo_cons_matched (c : RenderConfig) (st : TrackerState) (p : List Char)
    (ps : List (List Char)) (h : ¬ (classify p).kind = .unmatched) :
    rewriteGo c st (p :: ps)
      = render c (classify p) (inferLevel c (classify p) st).1
        :: rewriteGo c (inferLevel c (classify p) st).2 ps := by
  rw [rewriteGo_cons, rewriteStep_matched c st p h]

theorem rewriteGo_idem (c : RenderConfig) (hld : c.leaderChar = '.')
    (hml : 1 ≤ c.minLeaderLength) :
    ∀ (ps : List (List Char)) (st1 st2 : TrackerState),
    (c.indentPerLevel = 0
      ∨ (0 < c.indentPerLevel
          ∧ ((st1 = none ∧ st2 = none)
              ∨ ∃ pl pi, st1 = some (pl, pi) ∧ st2 = some (pl, c.indentPerLevel * pl)))) →
    rewriteGo c st2 (rewriteGo c st1 ps) = rewriteGo c st1 ps := by
  intro ps
  induction ps with
  | nil => intro st1 st2 _; rfl
  | cons p ps ih =>
    intro st1 st2 hrel
    by_cases hum : (classify p).kind = .unmatched
    · rw [rewriteGo_cons_unmatched c st1 p ps hum,
        rewriteGo_cons_unmatched c st2 p _ hum, ih st1 st2 hrel]
    · rw [rewriteGo_cons_matched c st1 p ps hum]
      have hkcases : (classify p).kind = .tocEntry ∨ (classify p).kind = .abbreviation := by
        rcases hk : (classify p).kind
        · exact Or.inl rfl
        · exact Or.inr rfl
        · exact absurd hk hum
      have hmain : (classify (render c (classify p) (inferLevel c (classify p) st1).1)).kind
            = (classify p).kind
          ∧ (classify (render c (classify p) (inferLevel c (classify p) st1).1)).label
            = (classify p).label
          ∧ (match (classify (render c (classify p) (inferLevel c (classify p) st1).1)).page,
               (classify p).page with
             | some p2, some p1 => pageTok p2 = pageTok p1
             | none, none => True
             | _, _ => False)
          ∧ (classify (render c (classify p) (inferLevel c (classify p) st1).1)).rawIndentation
            = c.indentPerLevel * (inferLevel c (classify p) st1).1 := by
        rcases hkcases with hk | hk
        · obtain ⟨hgl, hal, pn, hpage, hgp⟩ := classify_toc_shape p hk
          obtain ⟨pn', heq, hptok⟩ := classify_render_toc c (classify p)
            (inferLevel c (classify p) st1).1 hk hgl hal pn hpage hgp hld hml
          rw [heq]
          refine ⟨by rw [hk], rfl, ?_, rfl⟩
          rw [hpage]
          exact hptok
        · obtain ⟨hap, hpsn, hhead, hdt, hne, hpgnone⟩ := classify_abbrev_shape p hk
          have heq := classify_render_abbrev c (classify p)
            (inferLevel c (classify p) st1).1 hk hap hpsn hhead hdt hne
          rw [heq]
          refine ⟨by rw [hk], rfl, ?_, rfl⟩
          rw [hpgnone]
          exact trivial
      have hum2 : ¬ (classify (render c (classify p) (inferLevel c (classify p) st1).1)).kind
          = .unmatched := by
        rw [hmain.1]
        exact hum
      rw [rewriteGo_cons_matched c st2 _ _ hum2]
      rcases hrel with hk0 | ⟨hkpos, hsts⟩
      · -- indentation width zero: rendering does not depend on the level
        have hout := render_congr c (classify p)
          (classify (render c (classify p) (inferLevel c (classify p) st1).1))
          (inferLevel c (classify p) st1).1
          (inferLevel c (classify (render c (classify p) (inferLevel c (classify p) st1).1)) st2).1
          hmain.1 hmain.2.1 hmain.2.2.1 (by rw [hk0]; simp)
        rw [hout, ih _ _ (Or.inl hk0)]
      · -- positive indentation unit: the second run reproduces the level
        have hlv2 : (inferLevel c
            (classify (render c (classify p) (inferLevel c (classify p) st1).1)) st2).1
            = (inferLevel c (classify p) st1).1 := by
          apply inferLevel_second c _ st2 _ hkpos hmain.2.2.2 (inferLevel_le c _ st1)
          · intro h0
            rw [hmain.2.1]
            exact inferLevel_zero_depth c (classify p) st1 h0
          · rcases hsts with ⟨_, rfl⟩ | ⟨pl, pi, _, rfl⟩
            · exact Or.inl rfl
            · exact Or.inr ⟨pl, rfl⟩
        have hout := render_congr c (classify p)
          (classify (render c (classify p) (inferLevel c (classify p) st1).1))
          (inferLevel c (classify p) st1).1
          (inferLevel c (classify (render c (classify p) (inferLevel c (classify p) st1).1)) st2).1
          hmain.1 hmain.2.1 hmain.2.2.1 (by rw [hlv2])
        rw [hout]
        -- state relation for the tail
        have hst1' : (inferLevel c (classify p) st1).2
            = some ((inferLevel c (classify p) st1).1, (classify p).rawIndentation) :=
          inferLevel_snd c _ st1
        have hst2' : (inferLevel c
              (classify (render c (classify p) (inferLevel c (classify p) st1).1)) st2).2
            = some ((inferLevel c (classify p) st1).1,
                c.indentPerLevel * (inferLevel c (classify p) st1).1) := by
          rw [inferLevel_snd, hlv2, hmain.2.2.2]
        rw [ih _ _ (Or.inr ⟨hkpos, Or.inr ⟨(inferLevel c (classify p) st1).1,
          (classify p).rawIndentation, hst1', hst2'⟩⟩)]

end Toc

namespace Toc

/-! ### Rewrite pass structure -/

theorem rewriteGo_length (c : RenderConfig) :
    ∀ (ps : List (List Char)) (st : TrackerState),
      (rewriteGo c st ps).length = ps.length := by
  intro ps
  induction ps with
  | nil => intro st; rfl
  | cons p ps ih =>
    intro st
    rw [rewriteGo_cons]
    simp [ih]

theorem rewriteGo_unmatched_at (c : RenderConfig) :
    ∀ (ps : List (List Char)) (st : TrackerState) (i : Nat) (p : List Char),
      ps[i]? = some p → (classify p).kind = .unmatched →
      (rewriteGo c st ps)[i]? = some p := by
  intro ps
  induction ps with
  | nil => intro st i p h; simp at h
  | cons q ps ih =>
    intro st i p h hum
    rcases i with _ | i
    · simp only [List.getElem?_cons_zero, Option.some.injEq] at h
      subst h
      rw [rewriteGo_cons_unmatched c st q ps hum]
      simp
    · rw [rewriteGo_cons]
      simp only [List.getElem?_cons_succ] at h ⊢
      exact ih _ i p h hum

/-- C7: the rewrite pass is total and order-preserving — for every document
and configuration, the output has exactly one paragraph per input paragraph in
the same order, and paragraphs classified UNMATCHED appear in the output
unchanged. -/
theorem toc_rewrite_total_order (c : RenderConfig) (d : List (List Char)) :
    (rewrite c d).length = d.length
    ∧ ∀ (i : Nat) (p : List Char), d[i]? = some p →
        (classify p).kind = .unmatched → (rewrite c d)[i]? = some p :=
  ⟨rewriteGo_length c d none, fun i p h hum => rewriteGo_unmatched_at c d none i p h hum⟩

theorem toc_rewrite_total_order_witness :
    (rewrite ⟨4, 40, '.', 3⟩ ["Hello world".data]).length = 1
    ∧ (rewrite ⟨4, 40, '.', 3⟩ ["Hello world".data])[0]? = some "Hello world".data := by
  have h := toc_rewrite_total_order ⟨4, 40, '.', 3⟩ ["Hello world".data]
  exact ⟨h.1.trans rfl, h.2 0 "Hello world".data rfl (by decide)⟩

/-- C8 counterexample: with a non-dot leader character (and a margin that
clamps the leader at its minimum), the leader characters of the first pass are
absorbed into the label by the second pass, so re-running the pass changes the
output: the pass is not idempotent for every RenderConfig. -/
theorem toc_rewrite_not_idempotent :
    rewrite ⟨4, 0, '*', 3⟩ (rewrite ⟨4, 0, '*', 3⟩ ["A 1".data])
      ≠ rewrite ⟨4, 0, '*', 3⟩ ["A 1".data] := by
  decide

/-- C8 (amended): for every document and every RenderConfig whose leader
character is the dot and whose minimum leader length is at least 1 (so a
nonempty dot leader always separates label from page number), re-running the
pass on its own output yields no further change. -/
theorem toc_rewrite_idempotent (c : RenderConfig) (d : List (List Char))
    (hld : c.leaderChar = '.') (hml : 1 ≤ c.minLeaderLength) :
    rewrite c (rewrite c d) = rewrite c d := by
  unfold rewrite
  apply rewriteGo_idem c hld hml
  rcases Nat.eq_zero_or_pos c.indentPerLevel with h | h
  · exact Or.inl h
  · exact Or.inr ⟨h, Or.inl ⟨rfl, rfl⟩⟩

theorem toc_rewrite_idempotent_witness :
    rewrite ⟨4, 40, '.', 3⟩ (rewrite ⟨4, 40, '.', 3⟩
        ["Chapter 1 Overview……………→12".data, "    1.1 Background .... 5".data])
      = rewrite ⟨4, 40, '.', 3⟩
        ["Chapter 1 Overview……………→12".data, "    1.1 Background .... 5".data] :=
  toc_rewrite_idempotent ⟨4, 40, '.', 3⟩ _ rfl (by decide)

/-- C9 counterexample: under margin column 12, a label longer than the margin
forces the leader to its clamped minimum and pushes the page number past the
margin, so two rendered TOC_ENTRY lines of one output document end at
different columns (12 and 30): the right edge is not identical across
entries. -/
theorem toc_margin_not_uniform :
    (classify "Intro 1".data).kind = .tocEntry
    ∧ (classify "Introduction to Everything 2".data).kind = .tocEntry
    ∧ (rewrite ⟨4, 12, '.', 3⟩
        ["Intro 1".data, "Introduction to Everything 2".data]).map List.length = [12, 30]
    ∧ (12 : Nat) ≠ 30 := by
  decide

/-- C9 (amended): a rendered TOC_ENTRY line whose indentation, label, page
number and minimum leader fit within the margin column ends exactly at the
margin column — so all fitting entries share one right edge — and the leader
length always equals max(minLeaderLength, marginColumn - indentWidth -
labelWidth - pageNumberWidth). -/
theorem toc_render_margin (c : RenderConfig) (e : ClassifiedEntry) (lv : Nat)
    (pn : PageNum) (hk : e.kind = .tocEntry) (hpage : e.page = some pn)
    (hfit : c.indentPerLevel * lv + e.label.length + (pageTok pn).length
        + c.minLeaderLength ≤ c.marginColumn) :
    (render c e lv).length = c.marginColumn
    ∧ leaderLen c (c.indentPerLevel * lv) e.label.length (pageTok pn).length
      = max c.minLeaderLength (c.marginColumn - c.indentPerLevel * lv
          - e.label.length - (pageTok pn).length) := by
  refine ⟨?_, rfl⟩
  have hr : render c e lv = List.replicate (c.indentPerLevel * lv) ' ' ++ e.label
      ++ List.replicate (leaderLen c (List.replicate (c.indentPerLevel * lv) ' ').length
          e.label.length (pageTok pn).length) c.leaderChar ++ pageTok pn := by
    unfold render
    rw [hk, hpage]
  rw [hr]
  simp only [List.length_append, List.length_replicate]
  unfold leaderLen
  rw [Nat.max_eq_right (by omega)]
  omega

theorem toc_render_margin_witness :
    (render ⟨4, 40, '.', 3⟩ (classify "Intro 1".data) 0).length = 40 := by
  have h := toc_render_margin ⟨4, 40, '.', 3⟩ (classify "Intro 1".data) 0
    (.arabic "1".data) (by decide) (by decide) (by decide)
  exact h.1

/-- C10 counterexample: the page token "iv" has no uppercase letter, so its
detected case is not mixed and the renderer emits it verbatim as "iv", not as
"IV" — the claimed uniform rendering of all three casings as "IV" is false. -/
theorem toc_roman_lower_verbatim :
    renderedPage "Preface iv".data ≠ "IV".data := by
  decide

/-- C10 (amended): the page tokens "iv", "IV" and "Iv" all classify as Roman
page number with value 4; the mixed-case "Iv" is normalized to "IV", the
non-mixed "IV" and "iv" are rendered verbatim. -/
theorem toc_roman_round_trip :
    (classify "Preface iv".data).page = some (.roman "iv".data 4)
    ∧ (classify "Preface IV".data).page = some (.roman "IV".data 4)
    ∧ (classify "Preface Iv".data).page = some (.roman "Iv".data 4)
    ∧ renderedPage "Preface iv".data = "iv".data
    ∧ renderedPage "Preface IV".data = "IV".data
    ∧ renderedPage "Preface Iv".data = "IV".data := by
  decide

end Toc
